import Mathlib

/-!
Verification of the pax event-reconstruction core against its specification.

The development shallowly embeds the Python sources:
  * `pax/dsputils.py`   — signal mathematics, peak bounds, peak/valley refiner
  * `pax/plugins/io/MongoDB.py` — the sliding-window event clusterer
  * the ordered dispatch layer (producer/consumer over a shared queue), whose
    implementation lives outside the sources given here and is therefore
    modelled from the specification (§4.5), as marked on each definition.

Real-valued signal samples are modelled as rationals (`ℚ`); machine floats in
the source only ever enter comparisons and exact +,*,min operations in the
fragments verified here.  Fallible operations (numpy indexing errors, raised
exceptions, failed assertions) are modelled with `Option`/`Except`/error
constructors.  Loops that Python runs unboundedly are given explicit fuel that
provably suffices.
-/

set_option maxHeartbeats 4000000
set_option maxRecDepth 100000

/-! ## Indexing helpers (Python / numpy semantics) -/

/-- Python list/array indexing: a negative index wraps once from the end,
anything else out of range is an error (`none`). -/
def npGet (x : List ℚ) (i : Int) : Option ℚ :=
  if 0 ≤ i then (if i < (x.length : Int) then some (x.getD i.toNat 0) else none)
  else if -i ≤ (x.length : Int) then some (x.getD (x.length - (-i).toNat) 0) else none

/-- Total variant of `npGet` used where the embedded code only ever indexes in
bounds (established separately by the invariants proved below); out-of-range
reads return a junk `0` instead of raising. -/
def sigGet (s : List ℚ) (i : Int) : ℚ :=
  if 0 ≤ i then s.getD i.toNat 0 else s.getD (s.length - (-i).toNat) 0

/-! ## SignalMath: `sign_changes` and `intervals_above_threshold`
(`pax/dsputils.py` lines 25–58) -/

/-- The `report_first_index` argument of `sign_changes`. -/
inductive ReportFirst | positive | nonPositive | never
deriving DecidableEq

/-- The value the source writes into `above0[-1]` for each policy
(`0`, `1` and the `-1234` sentinel respectively). -/
def boundaryValue : ReportFirst → Int
  | .positive => 0
  | .nonPositive => 1
  | .never => -1234

/-- `np.clip(np.sign(signal), 0, inf)`: `1` where the sample is `> 0`, else `0`. -/
def above0 (signal : List ℚ) : List Int := signal.map fun x => if 0 < x then 1 else 0

/-- `a[-1] = v`: replace the last element.  (numpy raises on an empty array;
callers relevant to the claims never reach that case, and an empty array also
yields no reported indices.) -/
def setLast (v : Int) : List Int → List Int
  | [] => []
  | [_] => [v]
  | x :: y :: rest => x :: setLast v (y :: rest)

/-- The index scan at the heart of `sign_changes`: `above0 - np.roll(above0, 1)`
compares each element with its predecessor (the predecessor of position 0 being
the last element, passed as the initial `prev`).  Positions with difference `1`
are collected as "becomes positive"; positions with difference `-1` are
collected, already shifted down by one as in the source
(`np.where(...)[0] - 1`), as "becomes non-positive".  Both output lists are
produced in ascending position order, which is what the source's `np.sort`
calls return. -/
def upDown (prev : Int) (i : Int) : List Int → List Int × List Int
  | [] => ([], [])
  | x :: rest =>
    let ud := upDown x (i + 1) rest
    (if x - prev = 1 then i :: ud.1 else ud.1,
     if x - prev = -1 then (i - 1) :: ud.2 else ud.2)

/-- `sign_changes(signal, report_first_index)` (dsputils.py lines 37–58). -/
def sign_changes (signal : List ℚ) (rf : ReportFirst) : List Int × List Int :=
  let a := setLast (boundaryValue rf) (above0 signal)
  upDown (a.getLastD (boundaryValue rf)) 0 a

/-- Insertion of an element into a sorted list, for `sorted(...)`. -/
def insertSorted (x : Int) : List Int → List Int
  | [] => [x]
  | y :: ys => if x ≤ y then x :: y :: ys else y :: insertSorted x ys

/-- `sorted(...)` on a list of indices. -/
def pySorted : List Int → List Int
  | [] => []
  | x :: xs => insertSorted x (pySorted xs)

/-- `zip(*[iter(l)] * 2)`: consecutive pairs; a trailing odd element is dropped. -/
def pairUp : List Int → List (Int × Int)
  | a :: b :: rest => (a, b) :: pairUp rest
  | _ => []

/-- `intervals_above_threshold(signal, threshold)` (dsputils.py lines 25–30).
`sign_changes` is called with its default policy `'positive'`. -/
def intervals_above_threshold (signal : List ℚ) (threshold : ℚ) : List (Int × Int) :=
  let cross := sign_changes (signal.map fun x => x - threshold) .positive
  pairUp (pySorted (cross.1 ++ cross.2))

/-! ## PeakBoundsEngine (`pax/dsputils.py` lines 61–140) -/

/-- Index of the first element satisfying a predicate (the chunked iteration
of `find_first_fast` visits elements in index order, so it is this linear
scan). -/
def findFirstIdx (pred : ℚ → Bool) : List ℚ → Option Nat
  | [] => none
  | x :: xs => if pred x then some 0 else (findFirstIdx pred xs).map (· + 1)

/-- `find_first_fast(a, predicate)` (dsputils.py lines 131–140).  The chunked
scan returns the first index whose element satisfies the predicate; when no
element does, the source's fallback ("HACK: None found") returns the last
index `len(a) - 1`.  Consequently it never returns `None`, so the
`if left is None` / `if right is None` branches of `peak_bounds` are dead. -/
def find_first_fast (a : List ℚ) (pred : ℚ → Bool) : Int :=
  match findFirstIdx pred a with
  | some i => (i : Int)
  | none => (a.length : Int) - 1

/-- `peak_bounds(signal, max_idx, fraction_of_max, zero_level=0)`
(dsputils.py lines 85–120).  `none` models the `RuntimeError` raised on an
empty signal and the `IndexError` a Python out-of-range `signal[max_idx]`
would raise.  `signal[max_idx::-1]` is the reversed prefix through `max_idx`,
`signal[max_idx:]` the suffix from it. -/
def peak_bounds (signal : List ℚ) (max_idx : Nat) (fraction_of_max : ℚ)
    (zero_level : ℚ := 0) : Option (Int × Int) :=
  if signal.length = 0 then none
  else match signal[max_idx]? with
  | none => none
  | some height =>
    let threshold := min zero_level (height * fraction_of_max)
    if height < threshold then some (max_idx, max_idx)
    else
      let left := find_first_fast ((signal.take (max_idx + 1)).reverse)
        (fun x => decide (x < threshold))
      let right := find_first_fast (signal.drop max_idx)
        (fun x => decide (x < threshold))
      some ((max_idx : Int) - left, (max_idx : Int) + right)

/-- `np.argmax`: index of the first occurrence of the maximum.
Running maximum with strict improvement keeps the first occurrence. -/
def argmaxFrom (best : ℚ) (bestIdx : Nat) (i : Nat) : List ℚ → Nat
  | [] => bestIdx
  | x :: xs => if best < x then argmaxFrom x i (i + 1) xs else argmaxFrom best bestIdx (i + 1) xs

/-- `np.argmax` of a signal.  numpy raises on an empty array; the only caller
embedded here feeds the result into `peak_bounds`, which errors on an empty
signal anyway, so the empty case returns the junk index 0. -/
def np_argmax : List ℚ → Nat
  | [] => 0
  | x :: xs => argmaxFrom x 0 1 xs

/-- The fields of the `datastructure.Peak` record populated by
`find_peak_in_signal`. -/
structure Peak where
  index_of_maximum : Int
  height : ℚ
  left : Int
  right : Int
  area : ℚ
deriving DecidableEq

/-- `find_peak_in_signal(signal, unfiltered, integration_bound_fraction, offset=0)`
(dsputils.py lines 61–82).  `unfiltered[left:right + 1]` is a slice with
`0 ≤ left ≤ right` (established below), hence plain take/drop.  Note the
source computes `height` as `unfiltered[unfiltered_max]` where
`unfiltered_max` is the argmax *within the slice*, i.e. it indexes the full
waveform with a slice-relative index; the embedding reproduces this as-is. -/
def find_peak_in_signal (signal unfiltered : List ℚ)
    (integration_bound_fraction : ℚ) (offset : Int := 0) : Option Peak :=
  let max_idx := np_argmax signal
  match peak_bounds signal max_idx integration_bound_fraction 0 with
  | none => none
  | some (left, right) =>
    let window := (unfiltered.take (right + 1).toNat).drop left.toNat
    let unfiltered_max := np_argmax window
    some { index_of_maximum := offset + unfiltered_max
           height := unfiltered.getD unfiltered_max 0
           left := offset + left
           right := offset + right
           area := window.sum }

/-! ## EventClusterer: `sliding_window`
(`pax/plugins/io/MongoDB.py` lines 151–182) -/

/-- Failure modes of `sliding_window`: the explicit `ValueError` raised for a
positive left extension, a Python `IndexError` from an out-of-range access,
and fuel exhaustion (proved unreachable for the fuel used below). -/
inductive SWErr | leftPositive | indexErr | fuelOut
deriving DecidableEq

/-- The `while j < x.size` loop of `sliding_window`.  `acc` holds the emitted
ranges in reverse (its head is `ranges[-1]`, the most recently emitted range,
which the merge branch mutates).  After the loop the final flush runs.  All
element accesses go through `npGet`, mirroring Python's wrapping/raising
indexing. -/
def swLoop (x : List ℚ) (w : ℚ) (m : Int) (l r : ℚ) :
    Nat → Nat → Nat → List (ℚ × ℚ) → Except SWErr (List (ℚ × ℚ))
  | 0, _, _, _ => .error .fuelOut
  | fuel + 1, i, j, acc =>
    if j < x.length then
      match npGet x i with
      | none => .error .indexErr
      | some xi =>
        if w < x.getD j 0 - xi then
          if m < (j : Int) - (i : Int) then
            match npGet x ((j : Int) - 1) with
            | none => .error .indexErr
            | some xjm =>
              match acc with
              | (s, e) :: tl =>
                if xi < e + w then swLoop x w m l r fuel (i + 1) j ((s, xjm + r) :: tl)
                else swLoop x w m l r fuel (i + 1) j ((xi + l, xjm + r) :: (s, e) :: tl)
              | [] => swLoop x w m l r fuel (i + 1) j [(xi + l, xjm + r)]
          else swLoop x w m l r fuel (i + 1) j acc
        else swLoop x w m l r fuel i (j + 1) acc
    else
      if m < (j : Int) - (i : Int) then
        match npGet x i, npGet x ((j : Int) - 1) with
        | some xi, some xjm => .ok (((xi + l, xjm + r) :: acc).reverse)
        | _, _ => .error .indexErr
      else .ok acc.reverse

/-- `sliding_window(x, window, multiplicity, left, right)` (MongoDB.py lines
151–182).  Each loop iteration advances `i` or `j`, and the loop errors once
`i` reaches `len(x)` with `j` stuck, so `2 * len(x) + 2` fuel always
suffices. -/
def sliding_window (x : List ℚ) (w : ℚ) (m : Int) (l r : ℚ) :
    Except SWErr (List (ℚ × ℚ)) :=
  if 0 < l then .error .leftPositive
  else swLoop x w m l r (2 * x.length + 2) 0 0 []

/-! ## PeakValleyRefiner: `peaks_and_valleys`
(`pax/dsputils.py` lines 161–254) -/

/-- The 9-tap antisymmetric derivative kernel ("From Xerawdp",
dsputils.py line 33). -/
def derivative_kernel : List ℚ :=
  [-3059/1000000, -35187/1000000, -118739/1000000, -143928/1000000, 0,
   143928/1000000, 118739/1000000, 35187/1000000, 3059/1000000]

/-- `(len(derivative_kernel) - 1) / 2 = 4`, the number of boundary samples
zeroed at each edge of the convolved slope. -/
def kernelOffset : Nat := (derivative_kernel.length - 1) / 2

/-- One output sample of `np.convolve(signal, kernel, mode='same')`:
`out[j] = Σ_t kernel[t] * signal[j + kernelOffset - t]`, summed over the taps
of the kernel (`t` counts up from 0 as the recursion walks the kernel). -/
def convDot (signal : List ℚ) (j : Nat) : Nat → List ℚ → ℚ
  | _, [] => 0
  | t, k :: ks => k * signal.getD (j + kernelOffset - t) 0 + convDot signal j (t + 1) ks

/-- Map with an explicit running index. -/
def mapIdxFrom (f : Nat → ℚ) : Nat → List ℚ → List ℚ
  | _, [] => []
  | j, _ :: rest => f j :: mapIdxFrom f (j + 1) rest

/-- The smoothed slope of `peaks_and_valleys`: the same-mode convolution with
the derivative kernel, with `kernelOffset` samples zeroed at each edge
(`slope[0:offset] = 0`, `slope[len - offset:] = 0`).  For the positions that
are not zeroed the full kernel is in range, so zeroing and convolving commute
into this single definition. -/
def slopeOf (signal : List ℚ) : List ℚ :=
  mapIdxFrom (fun j =>
    if j < kernelOffset ∨ signal.length ≤ j + kernelOffset then 0
    else convDot signal j 0 derivative_kernel) 0 signal

/-- Outcome of `peaks_and_valleys`: normal return, any raised
error (`AssertionError`, the "Peak & valley list weird!" `RuntimeError`, or a
numpy error from `min`/`max` of an empty selection), or fuel exhaustion of the
refinement loop (proved unreachable for the fuel used). -/
inductive PVResult
  | done (peaks valleys : List Int)
  | err
  | fuelOut
deriving DecidableEq

/-- One outcome of a refinement-loop iteration: halt with a result, or
continue with a new cursor and new peak/valley lists. -/
inductive PVStep
  | halt (r : PVResult)
  | next (c : Nat) (peaks valleys : List Int)

/-- The valley chosen for deletion (dsputils.py lines 225–232): if both sides
failed, `valley_left if signal[valley_left] > signal[valley_right] else
valley_right`; otherwise the valley of the failing side. -/
def selectValley (s : List ℚ) (failL failR : Bool) (vl vr : Int) : Int :=
  if failL && failR then (if sigGet s vr < sigGet s vl then vl else vr)
  else if failL then vl else vr

/-- The removal tail of a refinement-loop iteration (dsputils.py lines
234–249), given the valley marked for removal: find the nearest peak to its
left; if no peak lies to its right (the valley is past `max(peaks)`), delete
the left peak, otherwise delete the shallower of the two neighbouring peaks;
drop the chosen peak and valley by value, and step the cursor back one
position (clamped at 0 by truncated subtraction, which is
`max(0, now_at_peak - 1)`). -/
def pvRemoveStep (s : List ℚ) (c : Nat) (peaks valleys : List Int) (vtr : Int) : PVStep :=
  match (peaks.filter (· < vtr)).max? with
  | none => .halt .err
  | some leftPeak =>
    match peaks.max? with
    | none => .halt .err
    | some maxPeak =>
      if maxPeak < vtr then
        .next (c - 1) (peaks.filter (· ≠ leftPeak)) (valleys.filter (· ≠ vtr))
      else
        match (peaks.filter (vtr < ·)).min? with
        | none => .halt .err
        | some rightPeak =>
          .next (c - 1)
            (peaks.filter
              (· ≠ (if sigGet s leftPeak < sigGet s rightPeak then leftPeak else rightPeak)))
            (valleys.filter (· ≠ vtr))

/-- One iteration of the `while 1` refinement loop (dsputils.py lines
200–249).  The `math.isnan` guard can never fire on rational samples and is
omitted.  `numpy` boolean-mask selections become `filter`; `np.min`/`np.max`
of an empty selection raise, modelled by `.halt .err`. -/
def pvStep (s : List ℚ) (test : List ℚ → Int → Int → Bool) (c : Nat)
    (peaks valleys : List Int) : PVStep :=
  if (peaks.length : Int) - 1 < (c : Int) then .halt (.done peaks valleys)
  else
    match valleys.min? with
    | none => .halt .err
    | some minv =>
      let peak := peaks.getD c 0
      match (if peak < minv then some (false, (0 : Int))
             else match (valleys.filter (· < peak)).max? with
                  | none => none
                  | some vl => some (! test s peak vl, vl)) with
      | none => .halt .err
      | some (failL, vl) =>
        match (valleys.filter (peak < ·)).min? with
        | none => .halt .err
        | some vr =>
          let failR := ! test s peak vr
          if failL = false ∧ failR = false then .next (c + 1) peaks valleys
          else pvRemoveStep s c peaks valleys (selectValley s failL failR vl vr)

/-- The fuelled refinement loop. -/
def pvLoop (s : List ℚ) (test : List ℚ → Int → Int → Bool) :
    Nat → Nat → List Int → List Int → PVResult
  | 0, _, _, _ => .fuelOut
  | fuel + 1, c, peaks, valleys =>
    match pvStep s test c peaks valleys with
    | .halt r => r
    | .next c' ps' vs' => pvLoop s test fuel c' ps' vs'

/-- Dropping of coinciding peak/valley pairs
(`good_indices = np.where(peaks != valleys)[0]`, positional on the two
equal-length arrays). -/
def dedupPairs (ps vs : List Int) : List Int × List Int :=
  let pairs := (ps.zip vs).filter fun pv => pv.1 ≠ pv.2
  (pairs.map Prod.fst, pairs.map Prod.snd)

/-- `peaks_and_valleys(signal, test_function)` (dsputils.py lines 161–254).
The candidate lists from `sign_changes` are already ascending, so the
re-sorting in the source is the identity.  `2 * len(peaks) + 1` fuel suffices
for the loop: every iteration either advances the cursor or shortens the peak
list while moving the cursor back at most one position. -/
def peaks_and_valleys (signal : List ℚ) (test : List ℚ → Int → Int → Bool) :
    PVResult :=
  if signal.length < derivative_kernel.length then .done [] []
  else
    let pv := sign_changes (slopeOf signal) .never
    if pv.1.length ≠ pv.2.length then .err
    else
      let pv2 := dedupPairs pv.1 pv.2
      if ¬ ((pv2.1.zip pv2.2).all fun q => q.1 < q.2) then .err
      else if pv2.1.length < 2 then .done pv2.1 pv2.2
      else pvLoop signal test (2 * pv2.1.length + 1) 0 pv2.1 pv2.2

/-- Specification predicate: `IlvFrom lo ps vs` holds when the two lists have
equal length and strictly interleave as
`lo ≤ p₀ < v₀ < p₁ < v₁ < ⋯` — every valley strictly after its paired peak
and strictly before the next peak.  This is the PeakValleyRefiner invariant
of the specification. -/
def IlvFrom : Int → List Int → List Int → Prop
  | _, [], [] => True
  | lo, p :: ps, v :: vs => lo ≤ p ∧ p < v ∧ IlvFrom (v + 1) ps vs
  | _, _, _ => False

/-- Specification predicate for the raw candidates before deduplication:
equal lengths and `lo ≤ u₀ ≤ w₀`, `w₀ + 2 ≤ u₁ ≤ w₁`, … — each reported
valley (a down-crossing position minus one) at or after its paired peak
(up-crossing position) and at least two before the next peak. -/
def AltUV : Int → List Int → List Int → Prop
  | _, [], [] => True
  | lo, u :: us, w :: ws => lo ≤ u ∧ u ≤ w ∧ AltUV (w + 2) us ws
  | _, _, _ => False

/-- Run decomposition of a 0/1 valuation `f` on absolute indices: the pair
list records maximal runs of 1s, each pair `(u, w)` standing for the run
occupying exactly the indices `u..w` (so `f` is `0` just outside on both
sides), with the whole decomposition confined to `[lo, hi)` and successive
runs separated by at least one 0.  This is exactly what `sign_changes`
reports: `u` is a becomes-positive index, `w` a becomes-non-positive index
already shifted down by one. -/
def RunPairs (f : Int → Int) : Int → Int → List (Int × Int) → Prop
  | _, _, [] => True
  | lo, hi, (u, w) :: rest =>
    lo ≤ u ∧ u ≤ w ∧ w + 2 ≤ hi ∧ f (u - 1) = 0 ∧
    (∀ j, u ≤ j → j ≤ w → f j = 1) ∧ f (w + 1) = 0 ∧ RunPairs f (w + 2) hi rest

/-- The ascending flattening `u₀, w₀, u₁, w₁, …` of a pair list, which is
what `sorted(becomes_positive + becomes_non_positive)` produces for the
runs reported by `sign_changes`. -/
def interleave : List (Int × Int) → List Int
  | [] => []
  | (u, w) :: rest => u :: w :: interleave rest

/-! ## OrderedDispatcher (modelled from the specification §4.5; the
implementation, `pax/parallel.py` and `pax/plugins/io/Queues.py`, is not among
the provided sources — only its tests are). -/

/-- A block: a sequence number with either an event payload or the terminal
sentinel (`NO_MORE_EVENTS`), payload `none`.  Events are identified by their
event numbers. -/
abbrev Block := Nat × Option (List Nat)

/-- Modelled from the spec: the producer buffers events into fixed-capacity
blocks; `chunksOf n l` is the list of successive `n`-sized chunks of `l`,
the final one possibly smaller. -/
def chunksOf (n : Nat) (l : List Nat) : List (List Nat) :=
  if h : n = 0 ∨ l = [] then []
  else l.take n :: chunksOf n (l.drop n)
termination_by l.length
decreasing_by
  simp only [List.length_drop]
  rcases Nat.eq_zero_or_pos n with h0 | h0
  · exact absurd (Or.inl h0) h
  · have : l ≠ [] := fun he => h (Or.inr he)
    have : 0 < l.length := List.length_pos.mpr this
    omega

/-- Number a list of chunks with consecutive sequence numbers from `i`. -/
def numberFrom (i : Nat) : List (List Nat) → List Block
  | [] => []
  | c :: cs => (i, some c) :: numberFrom (i + 1) cs

/-- Modelled from the spec: the producer pushes the filled blocks with
contiguous sequence numbers starting at 0, the flushed partial final block
included, followed by one terminal sentinel block with the next sequence
number. -/
def pushBlocks (blockSize : Nat) (events : List Nat) : List Block :=
  numberFrom 0 (chunksOf blockSize events) ++ [((chunksOf blockSize events).length, none)]

/-- Modelled from the spec: the consumer state — the next expected sequence
number, the buffer of blocks held for later, the events yielded so far, and
whether the sentinel has been consumed (ending iteration). -/
structure ConsState where
  next : Nat
  buffer : List Block
  out : List Nat
  stopped : Bool
deriving DecidableEq

/-- Remove the first block with the given sequence number from the buffer,
returning its payload and the remaining buffer. -/
def extractSeq (n : Nat) : List Block → Option (Option (List Nat) × List Block)
  | [] => none
  | b :: bs =>
    if b.1 = n then some (b.2, bs)
    else match extractSeq n bs with
         | none => none
         | some (p, rest) => some (p, b :: rest)

/-- The buffer shrinks when extraction succeeds. -/
theorem extractSeq_length {n : Nat} :
    ∀ {buf : List Block} {p rest}, extractSeq n buf = some (p, rest) →
      rest.length < buf.length := by
  intro buf
  induction buf with
  | nil => intro p rest h; simp [extractSeq] at h
  | cons b bs ih =>
    intro p rest h
    simp only [extractSeq] at h
    by_cases hb : b.1 = n
    · simp [hb] at h
      simp [← h.2]
    · simp only [hb, if_false] at h
      cases hbs : extractSeq n bs with
      | none => rw [hbs] at h; simp at h
      | some pr =>
        rw [hbs] at h
        cases pr with
        | mk p' rest' =>
          simp at h
          have := ih hbs
          simp [← h.2]
          omega

/-- Modelled from the spec: drain the buffer of now-contiguous successors —
while a block with the expected sequence number is buffered, yield its events
and increment the expectation; consuming the sentinel stops iteration. -/
def drain (st : ConsState) : ConsState :=
  match h : extractSeq st.next st.buffer with
  | none => st
  | some (none, rest) => { st with buffer := rest, stopped := true }
  | some (some evs, rest) =>
    drain { next := st.next + 1, buffer := rest, out := st.out ++ evs,
            stopped := st.stopped }
termination_by st.buffer.length
decreasing_by exact extractSeq_length h

/-- Modelled from the spec: pulling one block — place it in the buffer, then
drain everything that has become contiguous. -/
def pullBlock (st : ConsState) (b : Block) : ConsState :=
  drain { st with buffer := b :: st.buffer }

/-- Modelled from the spec: the consumer pulls arriving blocks one at a time,
in arrival order, until the sentinel has been consumed. -/
def consume : List Block → ConsState → ConsState
  | [], st => st
  | b :: rest, st => if st.stopped then st else consume rest (pullBlock st b)

/-- Modelled from the spec: the ordered consumer run on a whole arrival
sequence, from the initial state (expecting sequence number 0). -/
def ordered_consume (arrivals : List Block) : ConsState :=
  consume arrivals ⟨0, [], [], false⟩

/-! ## Helper lemmas -/

/-- Every index reported in the "becomes positive" output of the scan is at
least the scan's starting position. -/
theorem upDown_fst_ge :
    ∀ (l : List Int) (prev i : Int), ∀ j ∈ (upDown prev i l).1, i ≤ j := by
  intro l
  induction l with
  | nil => intro prev i j hj; simp [upDown] at hj
  | cons x rest ih =>
    intro prev i j hj
    simp only [upDown] at hj
    by_cases hx : x - prev = 1
    · simp [hx] at hj
      rcases hj with hj | hj
      · omega
      · have := ih x (i + 1) j hj; omega
    · simp [hx] at hj
      have := ih x (i + 1) j hj; omega

/-! ## C5: `sign_changes` with boundary policy `never` and index 0 -/

/-- C5 counterexample: with policy `never`, the signal `[1, -1, 1]` reports
index 0 in the becomes-non-positive output (the `>0 → ≤0` transition at index
1, reported shifted down by one), contradicting the claim that index 0 never
appears in either output. -/
theorem sign_changes_never_reports_zero :
    sign_changes [1, -1, 1] .never = ([], [0]) ∧
      (0 : Int) ∈ (sign_changes [1, -1, 1] .never).2 := by
  constructor
  · norm_num [sign_changes, above0, setLast, upDown, boundaryValue]
  · norm_num [sign_changes, above0, setLast, upDown, boundaryValue]

/-- Replacing the last element yields that value as the last element. -/
theorem setLast_getLastD (v : Int) :
    ∀ (l : List Int), l ≠ [] → ∀ d, (setLast v l).getLastD d = v := by
  intro l
  induction l with
  | nil => intro h; exact absurd rfl h
  | cons x xs ih =>
    intro _ d
    cases xs with
    | nil => simp [setLast]
    | cons y ys =>
      simp only [setLast, List.getLastD_cons]
      exact ih (by simp) x

/-- C5 amended: with boundary policy `never`, index 0 never appears in the
becomes-positive output; it can appear in the becomes-non-positive output
(standing for a crossing at index 1). -/
theorem sign_changes_never_fst_no_zero (signal : List ℚ) :
    (0 : Int) ∉ (sign_changes signal .never).1 := by
  intro h0
  match signal with
  | [] => simp [sign_changes, above0, setLast, upDown] at h0
  | [x] =>
    simp only [sign_changes, above0, boundaryValue, List.map_cons, List.map_nil,
      setLast, List.getLastD] at h0
    by_cases hx : 0 < x <;> simp [hx, upDown] at h0
  | x :: y :: t =>
    have hne : above0 (x :: y :: t) ≠ [] := by simp [above0]
    have hlast : (setLast (-1234 : Int) (above0 (x :: y :: t))).getLastD (-1234) = -1234 :=
      setLast_getLastD _ _ hne _
    have hA : setLast (-1234 : Int) (above0 (x :: y :: t))
        = (if 0 < x then (1:Int) else 0) :: setLast (-1234) (above0 (y :: t)) := by
      simp [above0, setLast]
    simp only [sign_changes, boundaryValue] at h0
    rw [hlast, hA] at h0
    simp only [upDown] at h0
    have hd : (if 0 < x then (1:Int) else 0) - (-1234) ≠ 1 := by
      by_cases hx : 0 < x <;> simp [hx]
    rw [if_neg hd] at h0
    have := upDown_fst_ge _ _ _ _ h0
    omega

/-! ## C2: `peak_bounds` -/

/-- Specification of the first-match scan when it finds an index. -/
theorem findFirstIdx_some_spec {pred : ℚ → Bool} :
    ∀ {l : List ℚ} {i : Nat}, findFirstIdx pred l = some i →
      i < l.length ∧ pred (l.getD i 0) = true ∧ ∀ j, j < i → pred (l.getD j 0) = false := by
  intro l
  induction l with
  | nil => intro i h; simp [findFirstIdx] at h
  | cons x xs ih =>
    intro i h
    simp only [findFirstIdx] at h
    by_cases hx : pred x
    · rw [if_pos hx] at h
      have hi : i = 0 := by simpa using h.symm
      subst hi
      exact ⟨by simp, by simpa using hx, by omega⟩
    · rw [if_neg hx] at h
      cases hfi : findFirstIdx pred xs with
      | none => rw [hfi] at h; exact absurd h (by simp)
      | some k =>
        rw [hfi] at h
        simp only [Option.map_some', Option.some.injEq] at h
        obtain ⟨h1, h2, h3⟩ := ih hfi
        subst h
        refine ⟨by simpa using Nat.succ_lt_succ h1, by simpa using h2, ?_⟩
        intro j hj
        cases j with
        | zero => simpa using hx
        | succ j' => simpa using h3 j' (by omega)

/-- Specification of the first-match scan when nothing matches. -/
theorem findFirstIdx_none_spec {pred : ℚ → Bool} :
    ∀ {l : List ℚ}, findFirstIdx pred l = none →
      ∀ j, j < l.length → pred (l.getD j 0) = false := by
  intro l
  induction l with
  | nil => intro _ j hj; simp at hj
  | cons x xs ih =>
    intro h j hj
    simp only [findFirstIdx] at h
    by_cases hx : pred x
    · rw [if_pos hx] at h; simp at h
    · rw [if_neg hx] at h
      cases j with
      | zero => simpa using hx
      | succ j' =>
        cases hfi : findFirstIdx pred xs with
        | none => simpa using ih hfi j' (by simpa using Nat.lt_of_succ_lt_succ hj)
        | some k => rw [hfi] at h; simp at h

/-- Element of the reversed prefix `signal[max_idx::-1]` in terms of the
signal. -/
theorem getD_reverse_take {s : List ℚ} {mi : Nat} (hmi : mi < s.length) :
    ∀ {j : Nat}, j ≤ mi → ((s.take (mi + 1)).reverse).getD j 0 = s.getD (mi - j) 0 := by
  intro j hj
  have hlt : mi + 1 ≤ s.length := hmi
  have hlen : (s.take (mi + 1)).length = mi + 1 := by
    simp [List.length_take]; omega
  have hjr : j < ((s.take (mi + 1)).reverse).length := by simp [hlen]; omega
  have hmj : mi - j < s.length := by omega
  rw [List.getD_eq_getElem _ _ hjr, List.getD_eq_getElem _ _ hmj]
  rw [List.getElem_reverse]
  have hb2 : (s.take (mi+1)).length - 1 - j < s.length := by
    rw [hlen]
    omega
  have : (s.take (mi + 1))[(s.take (mi+1)).length - 1 - j] =
      s[(s.take (mi+1)).length - 1 - j] := by
    apply List.getElem_take
  rw [this]
  congr 1
  rw [hlen]
  omega

/-- Element of the suffix `signal[max_idx:]` in terms of the signal. -/
theorem getD_drop {s : List ℚ} {mi j : Nat} (h : mi + j < s.length) :
    (s.drop mi).getD j 0 = s.getD (mi + j) 0 := by
  have hj : j < (s.drop mi).length := by simp [List.length_drop]; omega
  rw [List.getD_eq_getElem _ _ hj, List.getD_eq_getElem _ _ h]
  rw [List.getElem_drop]

/-- C2 amended: for a valid peak index, `peak_bounds` returns bounds with
`l ≤ peak_index ≤ r`; when `height ≥ threshold`, every sample strictly
between the bounds is `≥ threshold`, and each bound is either at the array
edge or sits on the first sample *strictly below* threshold in its direction
(the scan returns the first below-threshold index, not the last index still
at or above threshold). -/
theorem peak_bounds_amended (s : List ℚ) (mi : Nat) (f z : ℚ) (hmi : mi < s.length) :
    ∃ l r : Int,
      peak_bounds s mi f z = some (l, r) ∧
      0 ≤ l ∧ l ≤ (mi : Int) ∧ (mi : Int) ≤ r ∧
      (min z (s.getD mi 0 * f) ≤ s.getD mi 0 →
        r ≤ (s.length : Int) - 1 ∧
        (∀ m : Nat, l < (m : Int) → (m : Int) < r → min z (s.getD mi 0 * f) ≤ s.getD m 0) ∧
        (l = 0 ∨ s.getD l.toNat 0 < min z (s.getD mi 0 * f)) ∧
        (r = (s.length : Int) - 1 ∨ s.getD r.toNat 0 < min z (s.getD mi 0 * f))) := by
  have hlen0 : ¬ (s.length = 0) := by omega
  have hget : s[mi]? = some (s.getD mi 0) := by
    rw [List.getElem?_eq_getElem hmi, List.getD_eq_getElem _ _ hmi]
  by_cases hht : s.getD mi 0 < min z (s.getD mi 0 * f)
  · refine ⟨mi, mi, ?_, by omega, by omega, by omega, fun hc => absurd hht (by push_neg; exact hc)⟩
    simp only [peak_bounds, hlen0, if_false, hget]
    rw [if_pos hht]
  · have hpb : peak_bounds s mi f z =
        some ((mi : Int) - find_first_fast ((s.take (mi + 1)).reverse)
                (fun x => decide (x < min z (s.getD mi 0 * f))),
              (mi : Int) + find_first_fast (s.drop mi)
                (fun x => decide (x < min z (s.getD mi 0 * f)))) := by
      simp only [peak_bounds, hlen0, if_false, hget]
      rw [if_neg hht]
    set th := min z (s.getD mi 0 * f) with hth
    set pred : ℚ → Bool := fun x => decide (x < th) with hpred
    -- left scan facts: an index a with `0 ≤ leftVal = a ≤ mi`,
    -- everything between `mi - a` (exclusive) and `mi` (inclusive) at/above
    -- threshold, and either a full-prefix scan or a strict hit at `mi - a`.
    have hleft : ∃ a : Nat, a ≤ mi ∧
        find_first_fast ((s.take (mi + 1)).reverse) pred = (a : Int) ∧
        (∀ m : Nat, mi - a < m → m ≤ mi → th ≤ s.getD m 0) ∧
        (a = mi ∨ s.getD (mi - a) 0 < th) := by
      cases hL : findFirstIdx pred ((s.take (mi + 1)).reverse) with
      | none =>
        refine ⟨mi, le_refl _, ?_, ?_, Or.inl rfl⟩
        · simp only [find_first_fast, hL]
          simp [List.length_take]
          omega
        · intro m h1 h2
          have := findFirstIdx_none_spec hL (mi - m)
            (by simp [List.length_take]; omega)
          rw [getD_reverse_take hmi (by omega)] at this
          have hmm : mi - (mi - m) = m := by omega
          rw [hmm] at this
          exact not_lt.mp (of_decide_eq_false this)
      | some a =>
        obtain ⟨h1, h2, h3⟩ := findFirstIdx_some_spec hL
        have hlen : ((s.take (mi + 1)).reverse).length = mi + 1 := by
          simp [List.length_take]; omega
        rw [hlen] at h1
        have ha0 : a ≠ 0 := by
          intro h
          subst h
          rw [getD_reverse_take hmi (by omega)] at h2
          simp only [Nat.sub_zero] at h2
          exact absurd (of_decide_eq_true h2) hht
        refine ⟨a, by omega, ?_, ?_, ?_⟩
        · simp [find_first_fast, hL]
        · intro m hm1 hm2
          have hj : mi - m < a := by omega
          have := h3 (mi - m) hj
          rw [getD_reverse_take hmi (by omega)] at this
          have hmm : mi - (mi - m) = m := by omega
          rw [hmm] at this
          exact not_lt.mp (of_decide_eq_false this)
        · right
          rw [getD_reverse_take hmi (by omega)] at h2
          exact of_decide_eq_true h2
    -- right scan facts
    have hright : ∃ b : Nat, b ≤ s.length - 1 - mi ∧
        find_first_fast (s.drop mi) pred = (b : Int) ∧
        (∀ m : Nat, mi ≤ m → m < mi + b → th ≤ s.getD m 0) ∧
        (mi + b = s.length - 1 ∨ s.getD (mi + b) 0 < th) := by
      cases hR : findFirstIdx pred (s.drop mi) with
      | none =>
        refine ⟨s.length - 1 - mi, le_refl _, ?_, ?_, Or.inl (by omega)⟩
        · simp only [find_first_fast, hR, List.length_drop]
          omega
        · intro m h1 h2
          have := findFirstIdx_none_spec hR (m - mi) (by simp [List.length_drop]; omega)
          rw [getD_drop (by omega)] at this
          have hmm : mi + (m - mi) = m := by omega
          rw [hmm] at this
          exact not_lt.mp (of_decide_eq_false this)
      | some b =>
        obtain ⟨h1, h2, h3⟩ := findFirstIdx_some_spec hR
        rw [List.length_drop] at h1
        have hb0 : b ≠ 0 := by
          intro h
          subst h
          rw [getD_drop (by omega)] at h2
          simp only [Nat.add_zero] at h2
          exact absurd (of_decide_eq_true h2) hht
        refine ⟨b, by omega, ?_, ?_, ?_⟩
        · simp [find_first_fast, hR]
        · intro m hm1 hm2
          have := h3 (m - mi) (by omega)
          rw [getD_drop (by omega)] at this
          have hmm : mi + (m - mi) = m := by omega
          rw [hmm] at this
          exact not_lt.mp (of_decide_eq_false this)
        · right
          rw [getD_drop (by omega)] at h2
          exact of_decide_eq_true h2
    obtain ⟨a, ha, hfa, hintL, hbdL⟩ := hleft
    obtain ⟨b, hb, hfb, hintR, hbdR⟩ := hright
    refine ⟨(mi : Int) - a, (mi : Int) + b, ?_, by omega, by omega, by omega, ?_⟩
    · rw [hpb, hfa, hfb]
    · intro _
      refine ⟨by omega, ?_, ?_, ?_⟩
      · intro m hm1 hm2
        by_cases hcm : m ≤ mi
        · exact hintL m (by omega) hcm
        · exact hintR m (by omega) (by omega)
      · rcases hbdL with h | h
        · left; omega
        · right
          have : ((mi : Int) - a).toNat = mi - a := by omega
          rw [this]; exact h
      · rcases hbdR with h | h
        · left; omega
        · right
          have : ((mi : Int) + b).toNat = mi + b := by omega
          rw [this]; exact h

/-- C2 counterexample: for signal `[5, -1]`, peak index 0, fraction 1/2
(threshold `min(0, 5·½) = 0`, so `height ≥ threshold`), `peak_bounds`
returns `(0, 1)` although `signal[1] = -1` is *below* the threshold: the
returned bound is the first below-threshold sample, not the last sample still
`≥ threshold` as claimed. -/
theorem peak_bounds_bound_below_threshold :
    peak_bounds [5, -1] 0 (1/2) 0 = some (0, 1) ∧
      min (0 : ℚ) (([5, -1] : List ℚ).getD 0 0 * (1/2)) ≤ ([5, -1] : List ℚ).getD 0 0 ∧
      ([5, -1] : List ℚ).getD 1 0 < min (0 : ℚ) (([5, -1] : List ℚ).getD 0 0 * (1/2)) := by
  refine ⟨?_, by norm_num, by norm_num⟩
  norm_num [peak_bounds, find_first_fast, findFirstIdx]

/-- C2 witness: the amended statement applied to the concrete signal
`[1, 5, 2, -1]` with peak index 1. -/
theorem peak_bounds_amended_witness :
    1 < ([1, 5, 2, -1] : List ℚ).length ∧
    (∃ l r : Int,
      peak_bounds [1, 5, 2, -1] 1 (1/2) 0 = some (l, r) ∧
      0 ≤ l ∧ l ≤ (1 : Int) ∧ (1 : Int) ≤ r ∧
      (min (0:ℚ) (([1, 5, 2, -1] : List ℚ).getD 1 0 * (1/2)) ≤ ([1, 5, 2, -1] : List ℚ).getD 1 0 →
        r ≤ (([1, 5, 2, -1] : List ℚ).length : Int) - 1 ∧
        (∀ m : Nat, l < (m : Int) → (m : Int) < r →
          min (0:ℚ) (([1, 5, 2, -1] : List ℚ).getD 1 0 * (1/2)) ≤ ([1, 5, 2, -1] : List ℚ).getD m 0) ∧
        (l = 0 ∨ ([1, 5, 2, -1] : List ℚ).getD l.toNat 0 <
          min (0:ℚ) (([1, 5, 2, -1] : List ℚ).getD 1 0 * (1/2))) ∧
        (r = (([1, 5, 2, -1] : List ℚ).length : Int) - 1 ∨
          ([1, 5, 2, -1] : List ℚ).getD r.toNat 0 <
            min (0:ℚ) (([1, 5, 2, -1] : List ℚ).getD 1 0 * (1/2))))) :=
  ⟨by norm_num, peak_bounds_amended [1, 5, 2, -1] 1 (1/2) 0 (by norm_num)⟩

/-! ## C3: `find_peak_in_signal` -/

/-- C3: on signal = unfiltered = `[-1, -1, 8, 4, -1]` with fraction 1/2 and
offset 0, the bounds are `(1, 4)` and the maximum of the unfiltered waveform
restricted to `[1, 4]` is the sample 8 (at absolute index 2).  The code
instead reports `index_of_maximum = 1` and `height = -1`: it uses the argmax
*relative to the slice* (`np.argmax(unfiltered[left:right+1]) = 1`) as an
absolute index into the full waveform.  The reported height `-1` is smaller
than the window sample 8, so it is not the window maximum. -/
theorem find_peak_in_signal_wrong_height :
    find_peak_in_signal [-1, -1, 8, 4, -1] [-1, -1, 8, 4, -1] (1/2) 0 =
      some ⟨1, -1, 1, 4, 10⟩ ∧
    (8 : ℚ) ∈ (([-1, -1, 8, 4, -1] : List ℚ).take 5).drop 1 ∧
    (-1 : ℚ) < 8 := by
  refine ⟨?_, by norm_num, by norm_num⟩
  norm_num [find_peak_in_signal, np_argmax, argmaxFrom, peak_bounds,
    find_first_fast, findFirstIdx, Int.toNat]

/-! ## C9: validation errors of `peak_bounds` and `sliding_window` -/

/-- The clusterer loop never raises the left-extension validation error: that
error comes only from the check performed before the loop starts. -/
theorem swLoop_ne_leftPositive (x : List ℚ) (w : ℚ) (m : Int) (l r : ℚ) :
    ∀ (fuel i j : Nat) (acc : List (ℚ × ℚ)),
      swLoop x w m l r fuel i j acc ≠ .error .leftPositive := by
  intro fuel
  induction fuel with
  | zero => intro i j acc h; simp [swLoop] at h
  | succ n ih =>
    intro i j acc h
    simp only [swLoop] at h
    repeat' split at h
    all_goals first
      | exact ih _ _ _ h
      | simp at h

/-- C9: `peak_bounds` errors on the empty signal and succeeds on every
non-empty signal with a valid peak index; `sliding_window` raises its
input-validation error exactly when the left extension is positive (and does
so before entering the loop). -/
theorem validation_errors_iff :
    (∀ (mi : Nat) (f z : ℚ), peak_bounds [] mi f z = none) ∧
    (∀ (s : List ℚ) (mi : Nat) (f z : ℚ), mi < s.length →
      (peak_bounds s mi f z).isSome = true) ∧
    (∀ (x : List ℚ) (w : ℚ) (m : Int) (l r : ℚ),
      sliding_window x w m l r = .error .leftPositive ↔ 0 < l) := by
  refine ⟨?_, ?_, ?_⟩
  · intro mi f z; simp [peak_bounds]
  · intro s mi f z h
    have hlen : ¬ (s.length = 0) := by omega
    have hget : s[mi]? = some (s.getD mi 0) := by
      rw [List.getElem?_eq_getElem h, List.getD_eq_getElem _ _ h]
    simp only [peak_bounds, hlen, if_false, hget]
    split <;> simp
  · intro x w m l r
    constructor
    · intro h
      by_contra hl
      simp only [sliding_window, if_neg hl] at h
      exact swLoop_ne_leftPositive x w m l r _ _ _ _ h
    · intro hl; simp [sliding_window, hl]

/-- C9 witness: `peak_bounds` succeeds on the one-sample signal `[3]` with
peak index 0, and `sliding_window` on the empty list with left extension 1
raises the validation error. -/
theorem validation_errors_iff_witness :
    (0 < ([3] : List ℚ).length) ∧ (peak_bounds [3] 0 1 0).isSome = true ∧
      sliding_window [] 0 0 1 0 = .error .leftPositive :=
  ⟨by norm_num, validation_errors_iff.2.1 [3] 0 1 0 (by norm_num),
   (validation_errors_iff.2.2 [] 0 0 1 0).mpr (by norm_num)⟩

/-! ## C8: `sliding_window` output invariants -/

/-- `npGet` at a natural index is a bounds-checked lookup. -/
theorem npGet_natCast (x : List ℚ) (i : Nat) :
    npGet x (i : Int) = if i < x.length then some (x.getD i 0) else none := by
  simp only [npGet, Int.natCast_nonneg, if_true]
  by_cases hi : i < x.length
  · rw [if_pos (by exact_mod_cast hi), if_pos hi, Int.toNat_natCast]
  · rw [if_neg (by exact_mod_cast hi), if_neg hi]

/-- Sorted lookups are monotone. -/
theorem sorted_getD {x : List ℚ} (hx : x.Pairwise (· ≤ ·)) {a b : Nat}
    (hab : a ≤ b) (hb : b < x.length) : x.getD a 0 ≤ x.getD b 0 := by
  rcases Nat.eq_or_lt_of_le hab with h | h
  · subst h; exact le_refl _
  · have ha : a < x.length := by omega
    rw [List.getD_eq_getElem _ _ ha, List.getD_eq_getElem _ _ hb]
    exact List.pairwise_iff_getElem.mp hx a b ha hb h

/-- Invariant preservation through the `sliding_window` loop: from any state
whose accumulated (reversed) range list is descending, has endpoints drawn
from runs longer than the multiplicity, and is bounded by the current
cursors, an `.ok` result is descending-reversed (i.e. ascending) with all
endpoints drawn from such runs. -/
theorem swLoop_inv (x : List ℚ) (w : ℚ) (m : Int) (l r : ℚ)
    (hx : x.Pairwise (· ≤ ·)) (hm : 0 ≤ m) :
    ∀ (fuel : Nat) (i j : Nat) (acc ranges : List (ℚ × ℚ)),
    j ≤ x.length →
    (∀ p ∈ acc, ∃ i0 j0 : Nat, i0 < j0 ∧ j0 ≤ x.length ∧ m < (j0 : Int) - (i0 : Int) ∧
      p.1 = x.getD i0 0 + l) →
    (∀ p ∈ acc, ∃ i1 j1 : Nat, i1 < j1 ∧ j1 ≤ x.length ∧ m < (j1 : Int) - (i1 : Int) ∧
      p.2 = x.getD (j1 - 1) 0 + r) →
    acc.Chain' (fun a b => b.1 ≤ a.1 ∧ b.2 ≤ a.2) →
    (∀ p ∈ acc, i < x.length → p.1 ≤ x.getD i 0 + l) →
    (∀ p ∈ acc, 1 ≤ j ∧ p.2 ≤ x.getD (j - 1) 0 + r) →
    swLoop x w m l r fuel i j acc = .ok ranges →
    ranges.Chain' (fun a b => a.1 ≤ b.1 ∧ a.2 ≤ b.2) ∧
    ∀ p ∈ ranges,
      (∃ i0 j0 : Nat, i0 < j0 ∧ j0 ≤ x.length ∧ m < (j0 : Int) - (i0 : Int) ∧
        p.1 = x.getD i0 0 + l) ∧
      (∃ i1 j1 : Nat, i1 < j1 ∧ j1 ≤ x.length ∧ m < (j1 : Int) - (i1 : Int) ∧
        p.2 = x.getD (j1 - 1) 0 + r) := by
  intro fuel
  induction fuel with
  | zero =>
    intro i j acc ranges _ _ _ _ _ _ hloop
    simp [swLoop] at hloop
  | succ n ih =>
    intro i j acc ranges hj hS hE hC hBi hBj hloop
    simp only [swLoop] at hloop
    by_cases hjlen : j < x.length
    · rw [if_pos hjlen] at hloop
      rw [npGet_natCast] at hloop
      by_cases hilen : i < x.length
      case neg => rw [if_neg hilen] at hloop; exact absurd hloop (by simp)
      rw [if_pos hilen] at hloop
      simp only [] at hloop
      by_cases hw : w < x.getD j 0 - x.getD i 0
      case neg =>
        -- advance j
        rw [if_neg hw] at hloop
        refine ih i (j + 1) acc ranges (by omega) hS hE hC hBi ?_ hloop
        intro p hp
        obtain ⟨hj1, hp2⟩ := hBj p hp
        refine ⟨by omega, le_trans hp2 ?_⟩
        have : x.getD (j - 1) 0 ≤ x.getD (j + 1 - 1) 0 :=
          sorted_getD hx (by omega) (by omega)
        linarith
      rw [if_pos hw] at hloop
      by_cases hrun : m < (j : Int) - (i : Int)
      case neg =>
        -- advance i without emitting
        rw [if_neg hrun] at hloop
        refine ih (i + 1) j acc ranges hj hS hE hC ?_ hBj hloop
        intro p hp hi1
        have := hBi p hp hilen
        have hmono : x.getD i 0 ≤ x.getD (i + 1) 0 := sorted_getD hx (by omega) hi1
        linarith
      rw [if_pos hrun] at hloop
      have hj1 : 1 ≤ j := by omega
      have hj1c : ((j : Int) - 1) = ((j - 1 : Nat) : Int) := by omega
      rw [hj1c, npGet_natCast, if_pos (by omega)] at hloop
      simp only [] at hloop
      -- emission: merge, append to non-empty, or first append
      rcases acc with _ | ⟨⟨s, e⟩, tl⟩
      · replace hloop :
            swLoop x w m l r n (i + 1) j [(x.getD i 0 + l, x.getD (j - 1) 0 + r)] =
              .ok ranges := hloop
        refine ih (i + 1) j [(x.getD i 0 + l, x.getD (j - 1) 0 + r)] ranges hj ?_ ?_ ?_ ?_ ?_ hloop
        · intro p hp
          rcases List.mem_cons.mp hp with hp | hp
          · subst hp; exact ⟨i, j, by omega, by omega, hrun, rfl⟩
          · simp at hp
        · intro p hp
          rcases List.mem_cons.mp hp with hp | hp
          · subst hp; exact ⟨i, j, by omega, by omega, hrun, rfl⟩
          · simp at hp
        · simp
        · intro p hp hi1
          rcases List.mem_cons.mp hp with hp | hp
          · subst hp
            have hmono : x.getD i 0 ≤ x.getD (i + 1) 0 := sorted_getD hx (by omega) hi1
            simp only []
            linarith
          · simp at hp
        · intro p hp
          rcases List.mem_cons.mp hp with hp | hp
          · subst hp; exact ⟨hj1, by simp⟩
          · simp at hp
      · replace hloop :
            (if x.getD i 0 < e + w then
              swLoop x w m l r n (i + 1) j ((s, x.getD (j - 1) 0 + r) :: tl)
            else
              swLoop x w m l r n (i + 1) j
                ((x.getD i 0 + l, x.getD (j - 1) 0 + r) :: (s, e) :: tl)) =
              .ok ranges := hloop
        by_cases hmerge : x.getD i 0 < e + w
        · -- merge into the most recent range
          rw [if_pos hmerge] at hloop
          have hSh := hS (s, e) (by simp)
          refine ih (i + 1) j ((s, x.getD (j - 1) 0 + r) :: tl) ranges hj ?_ ?_ ?_ ?_ ?_ hloop
          · intro p hp
            rcases List.mem_cons.mp hp with hp | hp
            · subst hp; exact hSh
            · exact hS p (by simp [hp])
          · intro p hp
            rcases List.mem_cons.mp hp with hp | hp
            · subst hp
              exact ⟨i, j, by omega, by omega, hrun, rfl⟩
            · exact hE p (by simp [hp])
          · rcases List.chain'_cons'.mp hC with ⟨hhd, htl⟩
            refine List.chain'_cons'.mpr ⟨?_, htl⟩
            intro q hq
            obtain ⟨hq1, hq2⟩ := hhd q hq
            have := (hBj (s, e) (by simp)).2
            exact ⟨hq1, le_trans hq2 this⟩
          · intro p hp hi1
            have hmono : x.getD i 0 ≤ x.getD (i + 1) 0 := sorted_getD hx (by omega) hi1
            rcases List.mem_cons.mp hp with hp | hp
            · subst hp
              have := hBi (s, e) (by simp) hilen
              simp only []
              linarith
            · have := hBi p (by simp [hp]) hilen
              linarith
          · intro p hp
            rcases List.mem_cons.mp hp with hp | hp
            · subst hp; exact ⟨hj1, by simp⟩
            · exact ⟨hj1, (hBj p (by simp [hp])).2⟩
        · -- append a fresh range after the previous one
          rw [if_neg hmerge] at hloop
          refine ih (i + 1) j ((x.getD i 0 + l, x.getD (j - 1) 0 + r) :: (s, e) :: tl)
            ranges hj ?_ ?_ ?_ ?_ ?_ hloop
          · intro p hp
            rcases List.mem_cons.mp hp with hp | hp
            · subst hp; exact ⟨i, j, by omega, by omega, hrun, rfl⟩
            · exact hS p hp
          · intro p hp
            rcases List.mem_cons.mp hp with hp | hp
            · subst hp; exact ⟨i, j, by omega, by omega, hrun, rfl⟩
            · exact hE p hp
          · refine List.chain'_cons'.mpr ⟨?_, hC⟩
            intro q hq
            simp only [List.head?_cons, Option.mem_def, Option.some.injEq] at hq
            subst hq
            exact ⟨hBi (s, e) (by simp) hilen, (hBj (s, e) (by simp)).2⟩
          · intro p hp hi1
            have hmono : x.getD i 0 ≤ x.getD (i + 1) 0 := sorted_getD hx (by omega) hi1
            rcases List.mem_cons.mp hp with hp | hp
            · subst hp; simp only []; linarith
            · have := hBi p hp hilen; linarith
          · intro p hp
            rcases List.mem_cons.mp hp with hp | hp
            · subst hp; exact ⟨hj1, by simp⟩
            · exact hBj p hp
    · -- flush
      rw [if_neg hjlen] at hloop
      have hjeq : j = x.length := by omega
      by_cases hrun : m < (j : Int) - (i : Int)
      case neg =>
        rw [if_neg hrun] at hloop
        have hr : ranges = acc.reverse := by
          have := hloop
          simp only [Except.ok.injEq] at this
          exact this.symm
        subst hr
        constructor
        · rw [List.chain'_reverse]
          exact hC
        · intro p hp
          rw [List.mem_reverse] at hp
          exact ⟨hS p hp, hE p hp⟩
      rw [if_pos hrun] at hloop
      have hilen : i < x.length := by omega
      rw [npGet_natCast, if_pos hilen] at hloop
      have hj1 : 1 ≤ j := by omega
      have hj1c : ((j : Int) - 1) = ((j - 1 : Nat) : Int) := by omega
      rw [hj1c, npGet_natCast, if_pos (by omega)] at hloop
      simp only [Except.ok.injEq] at hloop
      subst hloop
      constructor
      · rw [List.chain'_reverse]
        refine List.chain'_cons'.mpr ⟨?_, hC⟩
        intro q hq
        rcases acc with _ | ⟨⟨s, e⟩, tl⟩
        · simp at hq
        · simp only [List.head?_cons, Option.mem_def, Option.some.injEq] at hq
          subst hq
          exact ⟨hBi (s, e) (by simp) hilen, (hBj (s, e) (by simp)).2⟩
      · intro p hp
        rw [List.mem_reverse, List.mem_cons] at hp
        rcases hp with hp | hp
        · subst hp
          exact ⟨⟨i, j, by omega, by omega, hrun, rfl⟩, ⟨i, j, by omega, by omega, hrun, rfl⟩⟩
        · exact ⟨hS p hp, hE p hp⟩

/-- C8 amended: for a sorted input, non-positive left extension and
non-negative multiplicity, the ranges returned by `sliding_window` are sorted
ascending (component-wise non-decreasing), and each range's start and end
come from underlying runs `[i, j)` of timestamps whose length strictly
exceeds the multiplicity.  The ranges need not be pairwise non-overlapping
(see the counterexample). -/
theorem sliding_window_amended (x : List ℚ) (w : ℚ) (m : Int) (l r : ℚ)
    (ranges : List (ℚ × ℚ)) (hx : x.Pairwise (· ≤ ·)) (hl : l ≤ 0) (hm : 0 ≤ m)
    (hok : sliding_window x w m l r = .ok ranges) :
    ranges.Chain' (fun a b => a.1 ≤ b.1 ∧ a.2 ≤ b.2) ∧
    ∀ p ∈ ranges,
      (∃ i0 j0 : Nat, i0 < j0 ∧ j0 ≤ x.length ∧ m < (j0 : Int) - (i0 : Int) ∧
        p.1 = x.getD i0 0 + l) ∧
      (∃ i1 j1 : Nat, i1 < j1 ∧ j1 ≤ x.length ∧ m < (j1 : Int) - (i1 : Int) ∧
        p.2 = x.getD (j1 - 1) 0 + r) := by
  simp only [sliding_window, if_neg (not_lt.mpr hl)] at hok
  exact swLoop_inv x w m l r hx hm _ 0 0 [] ranges (by omega)
    (by simp) (by simp) (by simp) (by simp) (by simp) hok

/-- C8 counterexample: sorted times `[0, 1, 10, 11]` with window 5,
multiplicity 1, left extension 0, right extension 10 produce the ranges
`[0, 11]` and `[10, 21]`.  The second range starts (10) before the first one
ends (11), so the output ranges overlap: the final flush appends without the
merge check the in-loop emission performs. -/
theorem sliding_window_overlapping_output :
    sliding_window [0, 1, 10, 11] 5 1 0 10 = .ok [(0, 11), (10, 21)] ∧
      ((10 : ℚ) ≤ 11 ∧ (0 : ℚ) ≤ 10) := by
  refine ⟨?_, by norm_num⟩
  norm_num [sliding_window, swLoop, npGet, Int.toNat, List.getD]

/-- C8 witness: the amended statement applied to the concrete input
`sliding_window([0,1,2,50], window=5, multiplicity=2, left=-1, right=1)`,
which yields the single range `(-1, 3)` built from the run `0,1,2`. -/
theorem sliding_window_amended_witness :
    sliding_window [0, 1, 2, 50] 5 2 (-1) 1 = .ok [(-1, 3)] ∧
    (List.Chain' (fun a b => a.1 ≤ b.1 ∧ a.2 ≤ b.2) [((-1 : ℚ), (3 : ℚ))] ∧
    ∀ p ∈ [((-1 : ℚ), (3 : ℚ))],
      (∃ i0 j0 : Nat, i0 < j0 ∧ j0 ≤ ([0, 1, 2, 50] : List ℚ).length ∧
        (2 : Int) < (j0 : Int) - (i0 : Int) ∧
        p.1 = ([0, 1, 2, 50] : List ℚ).getD i0 0 + (-1)) ∧
      (∃ i1 j1 : Nat, i1 < j1 ∧ j1 ≤ ([0, 1, 2, 50] : List ℚ).length ∧
        (2 : Int) < (j1 : Int) - (i1 : Int) ∧
        p.2 = ([0, 1, 2, 50] : List ℚ).getD (j1 - 1) 0 + 1)) := by
  have hok : sliding_window [0, 1, 2, 50] 5 2 (-1) 1 = .ok [(-1, 3)] := by
    norm_num [sliding_window, swLoop, npGet, Int.toNat, List.getD]
  exact ⟨hok, sliding_window_amended [0, 1, 2, 50] 5 2 (-1) 1
    [(-1, 3)] (by norm_num) (by norm_num) (by norm_num) hok⟩

/-! ## C1: the ordered dispatcher (spec-modelled) -/

/-- Concatenating the chunks of a list restores the list. -/
theorem chunksOf_join (n : Nat) (hn : 0 < n) :
    ∀ (k : Nat) (l : List Nat), l.length ≤ k → (chunksOf n l).flatten = l := by
  intro k
  induction k with
  | zero =>
    intro l hl
    have : l = [] := by
      cases l with
      | nil => rfl
      | cons a t => simp at hl
    subst this
    rw [chunksOf]
    simp
  | succ k ih =>
    intro l hl
    rw [chunksOf]
    by_cases h : n = 0 ∨ l = []
    · rw [dif_pos h]
      rcases h with h | h
      · omega
      · simp [h]
    · rw [dif_neg h]
      have hl0 : l ≠ [] := fun he => h (Or.inr he)
      have : 0 < l.length := List.length_pos.mpr hl0
      have hdrop : (l.drop n).length ≤ k := by
        simp only [List.length_drop]
        omega
      simp only [List.flatten_cons]
      rw [ih (l.drop n) hdrop]
      exact List.take_append_drop n l

/-- Dropping the first `j` numbered blocks. -/
theorem numberFrom_append_drop (tail : List Block) :
    ∀ (cs : List (List Nat)) (i j : Nat), j ≤ cs.length →
      (numberFrom i cs ++ tail).drop j = numberFrom (i + j) (cs.drop j) ++ tail := by
  intro cs
  induction cs with
  | nil =>
    intro i j hj
    have : j = 0 := by simpa using hj
    subst this
    simp [numberFrom]
  | cons c cs ih =>
    intro i j hj
    cases j with
    | zero => simp
    | succ j' =>
      simp only [numberFrom, List.cons_append, List.drop_succ_cons]
      have := ih (i + 1) j' (by simpa using Nat.lt_succ_iff.mp (Nat.lt_succ_of_le hj))
      rw [this]
      congr 2
      omega

/-- The suffix of the pushed blocks from sequence number `j` on. -/
theorem pushBlocks_drop (bs : Nat) (events : List Nat) {j : Nat}
    (hj : j ≤ (chunksOf bs events).length) :
    (pushBlocks bs events).drop j =
      numberFrom j ((chunksOf bs events).drop j) ++
        [((chunksOf bs events).length, none)] := by
  have := numberFrom_append_drop [((chunksOf bs events).length, none)]
    (chunksOf bs events) 0 j hj
  simpa [pushBlocks] using this

/-- A numbered block's sequence number locates its payload. -/
theorem mem_numberFrom :
    ∀ (cs : List (List Nat)) (i : Nat) (b : Block), b ∈ numberFrom i cs →
      i ≤ b.1 ∧ b.1 < i + cs.length ∧ b.2 = some (cs.getD (b.1 - i) []) := by
  intro cs
  induction cs with
  | nil => intro i b hb; simp [numberFrom] at hb
  | cons c cs ih =>
    intro i b hb
    simp only [numberFrom, List.mem_cons] at hb
    rcases hb with hb | hb
    · subst hb
      simp
    · obtain ⟨h1, h2, h3⟩ := ih (i + 1) b hb
      refine ⟨by omega, by simp; omega, ?_⟩
      rw [h3]
      have : b.1 - i = (b.1 - (i + 1)) + 1 := by omega
      rw [this]
      simp

/-- Every pushed block is a data block with the payload its sequence number
selects, or the sentinel. -/
theorem mem_pushBlocks {bs : Nat} {events : List Nat} {b : Block}
    (hb : b ∈ pushBlocks bs events) :
    (b.1 < (chunksOf bs events).length ∧
      b.2 = some ((chunksOf bs events).getD b.1 [])) ∨
    b = ((chunksOf bs events).length, none) := by
  simp only [pushBlocks, List.mem_append, List.mem_singleton] at hb
  rcases hb with hb | hb
  · obtain ⟨h1, h2, h3⟩ := mem_numberFrom _ 0 b hb
    left
    refine ⟨by omega, ?_⟩
    simpa using h3
  · right
    exact hb

/-- The block with the expected sequence number is present in the remaining
suffix of pushed blocks. -/
theorem seq_mem_pushBlocks_drop (bs : Nat) (events : List Nat) {j : Nat}
    (hj : j ≤ (chunksOf bs events).length) :
    ∃ p, ((j, p) : Block) ∈ (pushBlocks bs events).drop j := by
  rw [pushBlocks_drop bs events hj]
  rcases Nat.lt_or_ge j (chunksOf bs events).length with h | h
  · obtain ⟨c, rest, hcr⟩ : ∃ c rest, (chunksOf bs events).drop j = c :: rest := by
      have : (chunksOf bs events).drop j ≠ [] := by
        simp only [ne_eq, List.drop_eq_nil_iff]
        omega
      exact List.exists_cons_of_ne_nil this
    exact ⟨some c, by rw [hcr]; simp [numberFrom]⟩
  · refine ⟨none, ?_⟩
    have hd0 : (chunksOf bs events).drop j = [] := by
      simp only [List.drop_eq_nil_iff]
      omega
    have hj2 : j = (chunksOf bs events).length := by omega
    rw [hd0, hj2]
    simp [numberFrom]

/-- `extractSeq` fails exactly when no buffered block has the sequence
number. -/
theorem extractSeq_none_iff {n : Nat} :
    ∀ {buf : List Block}, extractSeq n buf = none ↔ ∀ b ∈ buf, b.1 ≠ n := by
  intro buf
  induction buf with
  | nil => simp [extractSeq]
  | cons b bs ih =>
    simp only [extractSeq, List.mem_cons]
    by_cases hb : b.1 = n
    · rw [if_pos hb]
      constructor
      · intro h; exact absurd h (by simp)
      · intro h; exact absurd hb (h b (Or.inl rfl))
    · simp only [hb, if_false]
      cases hbs : extractSeq n bs with
      | none =>
        simp only [hbs]
        constructor
        · intro _ c hc
          rcases hc with hc | hc
          · subst hc; exact hb
          · exact ih.mp hbs c hc
        · intro _; trivial
      | some pr =>
        rcases pr with ⟨p, rest⟩
        simp only [hbs]
        constructor
        · intro h; exact absurd h (by simp)
        · intro h
          have : ∀ c ∈ bs, c.1 ≠ n := fun c hc => h c (Or.inr hc)
          rw [ih.mpr this] at hbs
          exact absurd hbs (by simp)

/-- Successful extraction is a permutation split of the buffer. -/
theorem extractSeq_some_perm {n : Nat} :
    ∀ {buf : List Block} {p rest}, extractSeq n buf = some (p, rest) →
      buf.Perm ((n, p) :: rest) := by
  intro buf
  induction buf with
  | nil => intro p rest h; simp [extractSeq] at h
  | cons b bs ih =>
    intro p rest h
    simp only [extractSeq] at h
    by_cases hb : b.1 = n
    · rw [if_pos hb] at h
      simp only [Option.some.injEq, Prod.mk.injEq] at h
      have hbeq : b = (n, p) := by
        rcases b with ⟨b1, b2⟩
        have h2 : b2 = p := h.1
        simp only at hb
        simp [hb, h2]
      rw [hbeq, h.2]
    · rw [if_neg hb] at h
      cases hbs : extractSeq n bs with
      | none => rw [hbs] at h; simp at h
      | some pr =>
        rcases pr with ⟨p', rest'⟩
        rw [hbs] at h
        simp only [Option.some.injEq, Prod.mk.injEq] at h
        have hper := ih hbs
        rw [← h.1, ← h.2]
        exact (hper.cons b).trans (List.Perm.swap (n, p') b rest')

/-- One-step unfolding of `drain`. -/
theorem drain_eq (st : ConsState) :
    drain st = match extractSeq st.next st.buffer with
      | none => st
      | some (none, rest) => { st with buffer := rest, stopped := true }
      | some (some evs, rest) =>
        drain { next := st.next + 1, buffer := rest, out := st.out ++ evs,
                stopped := st.stopped } := by
  rw [drain]
  cases hE : extractSeq st.next st.buffer with
  | none => rfl
  | some pr =>
    rcases pr with ⟨p, rest⟩
    cases p <;> rfl

/-- Full characterisation of `drain` against the pushed blocks: starting from
a not-stopped state whose buffer joined with the not-yet-pulled arrivals is a
permutation of the pushed blocks from the expected sequence number on, drain
either consumes a contiguous run of data blocks and stops at the first gap,
or (only possible when nothing remains to arrive) consumes through the
sentinel and ends iteration with everything yielded in order. -/
theorem drain_spec (bs : Nat) (events : List Nat) :
    ∀ (fuelN : Nat) (buf : List Block), buf.length ≤ fuelN →
    ∀ (next : Nat) (out : List Nat) (rem : List Block),
      (buf ++ rem).Perm ((pushBlocks bs events).drop next) →
      next ≤ (chunksOf bs events).length →
      (∃ next2 buf2,
        drain ⟨next, buf, out, false⟩ =
          ⟨next2, buf2,
            out ++ (((chunksOf bs events).drop next).take (next2 - next)).flatten,
            false⟩ ∧
        next ≤ next2 ∧ next2 ≤ (chunksOf bs events).length ∧
        (buf2 ++ rem).Perm ((pushBlocks bs events).drop next2) ∧
        extractSeq next2 buf2 = none) ∨
      (rem = [] ∧
        drain ⟨next, buf, out, false⟩ =
          ⟨(chunksOf bs events).length, [],
            out ++ ((chunksOf bs events).drop next).flatten, true⟩) := by
  intro fuelN
  induction fuelN with
  | zero =>
    intro buf hbuf next out rem hperm hnext
    have hb0 : buf = [] := List.length_eq_zero.mp (by omega)
    subst hb0
    left
    refine ⟨next, [], ?_, le_refl _, hnext, hperm, by simp [extractSeq]⟩
    rw [drain_eq]
    simp [extractSeq]
  | succ N ih =>
    intro buf hbuf next out rem hperm hnext
    cases hext : extractSeq next buf with
    | none =>
      left
      refine ⟨next, buf, ?_, le_refl _, hnext, hperm, hext⟩
      rw [drain_eq]
      simp only [hext]
      simp
    | some pr =>
      rcases pr with ⟨p, restBuf⟩
      have hlenr : restBuf.length ≤ N := by
        have := extractSeq_length hext
        omega
      have hbufperm : buf.Perm ((next, p) :: restBuf) := extractSeq_some_perm hext
      have hmem : ((next, p) : Block) ∈ (pushBlocks bs events).drop next := by
        have h1 : ((next, p) : Block) ∈ buf := hbufperm.mem_iff.mpr (by simp)
        exact hperm.subset (by simp [h1])
      have hmemB : ((next, p) : Block) ∈ pushBlocks bs events :=
        List.mem_of_mem_drop hmem
      rcases Nat.lt_or_ge next (chunksOf bs events).length with hlt | hge
      · -- a data block is consumed; recurse
        have hp : p = some ((chunksOf bs events).getD next []) := by
          rcases mem_pushBlocks hmemB with ⟨_, h2⟩ | h2
          · exact h2
          · exfalso
            have : next = (chunksOf bs events).length := congrArg Prod.fst h2
            omega
        have hcs : (chunksOf bs events).drop next =
            (chunksOf bs events).getD next [] :: (chunksOf bs events).drop (next + 1) := by
          rw [List.getD_eq_getElem _ _ hlt]
          exact List.drop_eq_getElem_cons hlt
        have hdropcons : (pushBlocks bs events).drop next =
            ((next : Nat), some ((chunksOf bs events).getD next [])) ::
              (pushBlocks bs events).drop (next + 1) := by
          rw [pushBlocks_drop bs events (by omega), pushBlocks_drop bs events (by omega)]
          rw [hcs]
          simp [numberFrom]
        have hpermrec : (restBuf ++ rem).Perm ((pushBlocks bs events).drop (next + 1)) := by
          have h1 : ((buf : List Block) ++ rem).Perm (((next, p) :: restBuf) ++ rem) :=
            hbufperm.append_right rem
          have h2 := h1.symm.trans hperm
          rw [hdropcons, hp] at h2
          simp only [List.cons_append] at h2
          exact List.Perm.cons_inv h2
        have hdr : drain ⟨next, buf, out, false⟩ =
            drain ⟨next + 1, restBuf, out ++ (chunksOf bs events).getD next [], false⟩ := by
          rw [drain_eq]
          simp only [hext, hp]
        rcases ih restBuf hlenr (next + 1) (out ++ (chunksOf bs events).getD next [])
            rem hpermrec (by omega) with
          ⟨next2, buf2, heq, hle, hle2, hperm2, hnone⟩ | ⟨hrem, heq⟩
        · left
          refine ⟨next2, buf2, ?_, by omega, hle2, hperm2, hnone⟩
          rw [hdr, heq]
          have hsub : next2 - next = (next2 - (next + 1)) + 1 := by omega
          rw [hcs, hsub, List.take_succ_cons, List.flatten_cons, List.append_assoc]
        · right
          refine ⟨hrem, ?_⟩
          rw [hdr, heq]
          rw [hcs, List.flatten_cons, List.append_assoc]
      · -- the sentinel is consumed; iteration ends
        have hnk : next = (chunksOf bs events).length := by omega
        have hp : p = none := by
          rcases mem_pushBlocks hmemB with ⟨h1, _⟩ | h2
          · exfalso; omega
          · exact congrArg Prod.snd h2
        have hdropk : (pushBlocks bs events).drop next =
            [((chunksOf bs events).length, none)] := by
          rw [pushBlocks_drop bs events hnext]
          have hd0 : (chunksOf bs events).drop next = [] := by
            simp only [List.drop_eq_nil_iff]
            omega
          rw [hd0]
          simp [numberFrom]
        have hlen1 : buf.length + rem.length = 1 := by
          have := hperm.length_eq
          rw [hdropk] at this
          simpa [List.length_append] using this
        have hbl : 1 ≤ buf.length := by
          have hmem2 : ((next, p) : Block) ∈ buf := hbufperm.mem_iff.mpr (by simp)
          have := List.length_pos.mpr (List.ne_nil_of_mem hmem2)
          omega
        have hrem : rem = [] := by
          have : rem.length = 0 := by omega
          exact List.length_eq_zero.mp this
        have hrest : restBuf = [] := by
          have := hbufperm.length_eq
          simp only [List.length_cons] at this
          have : restBuf.length = 0 := by omega
          exact List.length_eq_zero.mp this
        refine Or.inr ⟨hrem, ?_⟩
        rw [drain_eq]
        simp only [hext, hp]
        have hd0 : (chunksOf bs events).drop next = [] := by
          simp only [List.drop_eq_nil_iff]
          omega
        simp [hnk, hrest, hd0]

/-- The consumer, from any reachable not-stopped state, processes the
remaining arrivals to completion: everything is yielded in sequence order and
iteration ends exactly when the sentinel's sequence number is the expected
one. -/
theorem consume_spec (bs : Nat) (events : List Nat) :
    ∀ (rem buf : List Block) (next : Nat) (out : List Nat),
      (buf ++ rem).Perm ((pushBlocks bs events).drop next) →
      next ≤ (chunksOf bs events).length →
      extractSeq next buf = none →
      consume rem ⟨next, buf, out, false⟩ =
        ⟨(chunksOf bs events).length, [],
          out ++ ((chunksOf bs events).drop next).flatten, true⟩ := by
  intro rem
  induction rem with
  | nil =>
    intro buf next out hperm hnext hnone
    exfalso
    obtain ⟨p, hp⟩ := seq_mem_pushBlocks_drop bs events hnext
    have : ((next, p) : Block) ∈ buf ++ [] := hperm.mem_iff.mpr hp
    rw [List.append_nil] at this
    exact (extractSeq_none_iff.mp hnone _ this) rfl
  | cons b rest ih =>
    intro buf next out hperm hnext hnone
    show consume rest (pullBlock ⟨next, buf, out, false⟩ b) = _
    unfold pullBlock
    have hperm2 : ((b :: buf) ++ rest).Perm ((pushBlocks bs events).drop next) := by
      have hmid : ((b :: buf) ++ rest).Perm (buf ++ (b :: rest)) := by
        simp only [List.cons_append]
        exact (List.perm_middle).symm
      exact hmid.trans hperm
    rcases drain_spec bs events (b :: buf).length (b :: buf) le_rfl next out rest
        hperm2 hnext with
      ⟨next2, buf2, heq, hle, hle2, hperm3, hnone2⟩ | ⟨hrem, heq⟩
    · have := ih buf2 next2 (out ++ (((chunksOf bs events).drop next).take (next2 - next)).flatten)
        hperm3 hle2 hnone2
      rw [heq, this]
      have hj : (((chunksOf bs events).drop next).take (next2 - next)).flatten ++
          ((chunksOf bs events).drop next2).flatten =
          ((chunksOf bs events).drop next).flatten := by
        rw [← List.flatten_append]
        congr 1
        have hdd : (chunksOf bs events).drop next2 =
            ((chunksOf bs events).drop next).drop (next2 - next) := by
          rw [List.drop_drop]
          congr 1
          omega
        rw [hdd]
        exact List.take_append_drop _ _
      rw [List.append_assoc, hj]
    · subst hrem
      rw [heq]
      rfl

/-- C1: for every list of events, chunk capacity, and arrival order of the
pushed blocks at the consumer, the ordered consumer yields exactly the
pushed events in their original order, and iteration terminates (stopped),
with the expected sequence number resting at the sentinel's sequence number —
i.e. iteration ended exactly when the sentinel became the next expected
block.  (Dispatcher modelled from spec §4.5.) -/
theorem ordered_consume_spec (blockSize : Nat) (events : List Nat)
    (arrivals : List Block) (hbs : 0 < blockSize)
    (hperm : arrivals.Perm (pushBlocks blockSize events)) :
    ordered_consume arrivals =
      ⟨(chunksOf blockSize events).length, [], events, true⟩ := by
  have h0 : (([] : List Block) ++ arrivals).Perm ((pushBlocks blockSize events).drop 0) := by
    simpa using hperm
  have := consume_spec blockSize events arrivals [] 0 [] h0 (Nat.zero_le _)
    (by simp [extractSeq])
  rw [ordered_consume, this]
  have hj : ((chunksOf blockSize events).drop 0).flatten = events := by
    simpa using chunksOf_join blockSize hbs events.length events le_rfl
  rw [hj]
  simp

/-- Unfolding of `chunksOf` off the guard. -/
theorem chunksOf_ne (n : Nat) (l : List Nat) (hn : ¬ (n = 0 ∨ l = [])) :
    chunksOf n l = l.take n :: chunksOf n (l.drop n) := by
  rw [chunksOf]
  rw [dif_neg hn]

/-- C1 witness: events 0..21 pushed as blocks of 10 (sequence 0, 1), a
partial block (sequence 2) and the sentinel (sequence 3), pulled in the
arrival order [2, 0, 1, 3]: the consumer yields 0..21 in original order and
iteration terminates at the sentinel. -/
theorem ordered_consume_spec_witness :
    (0 < 10) ∧
    ([((2 : Nat), some [20, 21]), (0, some [0, 1, 2, 3, 4, 5, 6, 7, 8, 9]),
      (1, some [10, 11, 12, 13, 14, 15, 16, 17, 18, 19]), (3, none)] : List Block).Perm
      (pushBlocks 10 (List.range 22)) ∧
    ordered_consume
      [((2 : Nat), some [20, 21]), (0, some [0, 1, 2, 3, 4, 5, 6, 7, 8, 9]),
       (1, some [10, 11, 12, 13, 14, 15, 16, 17, 18, 19]), (3, none)] =
      ⟨(chunksOf 10 (List.range 22)).length, [], List.range 22, true⟩ := by
  have hr : List.range 22 =
      [0, 1, 2, 3, 4, 5, 6, 7, 8, 9, 10, 11, 12, 13, 14, 15, 16, 17, 18, 19, 20, 21] := by decide
  have hchunks : chunksOf 10
      [0, 1, 2, 3, 4, 5, 6, 7, 8, 9, 10, 11, 12, 13, 14, 15, 16, 17, 18, 19, 20, 21] =
      [[0, 1, 2, 3, 4, 5, 6, 7, 8, 9], [10, 11, 12, 13, 14, 15, 16, 17, 18, 19],
       [20, 21]] := by
    rw [chunksOf_ne 10 _ (by simp),
        show List.take 10 [0, 1, 2, 3, 4, 5, 6, 7, 8, 9, 10, 11, 12, 13, 14, 15, 16, 17, 18, 19, 20, 21] = [0, 1, 2, 3, 4, 5, 6, 7, 8, 9] from by decide,
        show List.drop 10 [0, 1, 2, 3, 4, 5, 6, 7, 8, 9, 10, 11, 12, 13, 14, 15, 16, 17, 18, 19, 20, 21] = [10, 11, 12, 13, 14, 15, 16, 17, 18, 19, 20, 21] from by decide,
        chunksOf_ne 10 _ (by simp),
        show List.take 10 [10, 11, 12, 13, 14, 15, 16, 17, 18, 19, 20, 21] = [10, 11, 12, 13, 14, 15, 16, 17, 18, 19] from by decide,
        show List.drop 10 [10, 11, 12, 13, 14, 15, 16, 17, 18, 19, 20, 21] = [20, 21] from by decide,
        chunksOf_ne 10 _ (by simp),
        show List.take 10 [20, 21] = [20, 21] from by decide,
        show List.drop 10 [20, 21] = ([] : List Nat) from by decide,
        chunksOf]
    simp
  have hpush : pushBlocks 10 (List.range 22) =
      [(0, some [0, 1, 2, 3, 4, 5, 6, 7, 8, 9]),
       (1, some [10, 11, 12, 13, 14, 15, 16, 17, 18, 19]),
       (2, some [20, 21]), (3, none)] := by
    simp only [pushBlocks, hr, hchunks]
    decide
  have hperm :
      ([((2 : Nat), some [20, 21]), (0, some [0, 1, 2, 3, 4, 5, 6, 7, 8, 9]),
        (1, some [10, 11, 12, 13, 14, 15, 16, 17, 18, 19]), (3, none)] : List Block).Perm
        (pushBlocks 10 (List.range 22)) := by
    rw [hpush]
    decide
  exact ⟨by norm_num, hperm,
    ordered_consume_spec 10 (List.range 22) _ (by norm_num) hperm⟩

/-! ## C4: the valley selected for deletion in the refinement loop -/

/-- C4 amended: when both sides fail, `selectValley` deletes the valley whose
signal value is the *larger* of the two (the shallower dip), with ties going
to the right valley; when only one side fails, that side's valley is
selected. -/
theorem selectValley_amended (s : List ℚ) (vl vr : Int) :
    selectValley s true true vl vr = (if sigGet s vr < sigGet s vl then vl else vr) ∧
    sigGet s (selectValley s true true vl vr) = max (sigGet s vl) (sigGet s vr) ∧
    (sigGet s vl = sigGet s vr → selectValley s true true vl vr = vr) ∧
    selectValley s true false vl vr = vl ∧
    selectValley s false true vl vr = vr := by
  refine ⟨rfl, ?_, ?_, rfl, rfl⟩
  · by_cases h : sigGet s vr < sigGet s vl
    · rw [show selectValley s true true vl vr = vl from by simp [selectValley, h]]
      rw [max_eq_left (le_of_lt h)]
    · rw [show selectValley s true true vl vr = vr from by simp [selectValley, h]]
      rw [max_eq_right (not_lt.mp h)]
  · intro h
    show (if sigGet s vr < sigGet s vl then vl else vr) = vr
    rw [if_neg (by rw [h]; exact lt_irrefl _)]

/-- C4 amended witness: a tie between the two valley values selects the right
valley. -/
theorem selectValley_amended_witness : selectValley [] true true 0 1 = 1 :=
  (selectValley_amended [] 0 1).2.2.1 (by norm_num [sigGet])

/-- The slope's candidate sign pattern for the two-step staircase signal used
as the refinement-loop counterexample: descents produce positive slope runs
at indices 4..9 and 22..29, ascents negative runs, flats zero. -/
theorem above0_slope_staircase :
    above0 (slopeOf
      [100, 100, 100, 100, 100, 100, 20, 20, 20, 20, 20, 20, 20, 20, 20, 20, 80, 80, 80, 80, 80, 80, 80, 80, 80, 80, 50, 50, 50, 50, 50, 50, 50, 50, 50]) =
      [0, 0, 0, 0, 1, 1, 1, 1, 1, 1, 0, 0, 0, 0, 0, 0, 0, 0, 0, 0, 0, 0,
       1, 1, 1, 1, 1, 1, 1, 1, 0, 0, 0, 0, 0] := by
  norm_num [above0, slopeOf, mapIdxFrom, convDot, derivative_kernel, kernelOffset]

/-- The candidate peaks and valleys of the staircase signal: peaks (slope
up-crossings) at 4 and 22, valleys at 9 and 29. -/
theorem sign_changes_slope_staircase :
    sign_changes (slopeOf
      [100, 100, 100, 100, 100, 100, 20, 20, 20, 20, 20, 20, 20, 20, 20, 20, 80, 80, 80, 80, 80, 80, 80, 80, 80, 80, 50, 50, 50, 50, 50, 50, 50, 50, 50]) .never =
      ([4, 22], [9, 29]) := by
  simp only [sign_changes]
  rw [above0_slope_staircase]
  decide

/-- C4 counterexample: on the staircase signal the candidates are peaks
[4, 22] and valleys [9, 29], with signal values 20 at valley 9 and 50 at
valley 29.  With an acceptance test passing only the pair (4, 9), the cursor
reaches peak 22 where *both* its valleys fail (test(22, 9) and test(22, 29)
are false).  The claim says the valley with the smaller signal value (9,
value 20) is deleted; the code instead deletes valley 29 (value 50, the
larger) — the final result retains valley 9. -/
theorem peaks_and_valleys_deletes_larger_valley :
    peaks_and_valleys
      [100, 100, 100, 100, 100, 100, 20, 20, 20, 20, 20, 20, 20, 20, 20, 20, 80, 80, 80, 80, 80, 80, 80, 80, 80, 80, 50, 50, 50, 50, 50, 50, 50, 50, 50]
      (fun _ p v => decide (p = 4 ∧ v = 9)) = .done [4] [9] ∧
    sigGet
      [100, 100, 100, 100, 100, 100, 20, 20, 20, 20, 20, 20, 20, 20, 20, 20, 80, 80, 80, 80, 80, 80, 80, 80, 80, 80, 50, 50, 50, 50, 50, 50, 50, 50, 50] 9 <
      sigGet
      [100, 100, 100, 100, 100, 100, 20, 20, 20, 20, 20, 20, 20, 20, 20, 20, 80, 80, 80, 80, 80, 80, 80, 80, 80, 80, 50, 50, 50, 50, 50, 50, 50, 50, 50] 29 ∧
    (fun (_ : List ℚ) (p v : Int) => decide (p = 4 ∧ v = 9))
      [100, 100, 100, 100, 100, 100, 20, 20, 20, 20, 20, 20, 20, 20, 20, 20, 80, 80, 80, 80, 80, 80, 80, 80, 80, 80, 50, 50, 50, 50, 50, 50, 50, 50, 50] 22 9 = false ∧
    (fun (_ : List ℚ) (p v : Int) => decide (p = 4 ∧ v = 9))
      [100, 100, 100, 100, 100, 100, 20, 20, 20, 20, 20, 20, 20, 20, 20, 20, 80, 80, 80, 80, 80, 80, 80, 80, 80, 80, 50, 50, 50, 50, 50, 50, 50, 50, 50] 22 29 = false := by
  refine ⟨?_, by norm_num [sigGet, Int.toNat], by norm_num, by norm_num⟩
  simp only [peaks_and_valleys]
  rw [sign_changes_slope_staircase]
  norm_num [dedupPairs, pvLoop, pvStep, pvRemoveStep, selectValley, sigGet,
    derivative_kernel, Int.toNat]

/-! ## Toolkit for the refinement-loop invariant (C7, C10) -/

/-- The left fold with `max` computes a member that bounds the list. -/
theorem foldl_max_spec : ∀ (t : List Int) (x : Int),
    t.foldl max x ∈ x :: t ∧ ∀ y ∈ x :: t, y ≤ t.foldl max x := by
  intro t
  induction t with
  | nil => intro x; simp
  | cons z t ih =>
    intro x
    obtain ⟨h1, h2⟩ := ih (max x z)
    constructor
    · show t.foldl max (max x z) ∈ x :: z :: t
      rcases List.mem_cons.mp h1 with h | h
      · rw [h]
        rcases max_choice x z with hm | hm <;> rw [hm] <;> simp
      · simp [h]
    · intro y hy
      show y ≤ t.foldl max (max x z)
      rcases List.mem_cons.mp hy with h | h
      · rw [h]
        exact le_trans (le_max_left x z) (h2 _ (by simp))
      · rcases List.mem_cons.mp h with h | h
        · rw [h]
          exact le_trans (le_max_right x z) (h2 _ (by simp))
        · exact h2 _ (by simp [h])

/-- The left fold with `min` computes a member below the list. -/
theorem foldl_min_spec : ∀ (t : List Int) (x : Int),
    t.foldl min x ∈ x :: t ∧ ∀ y ∈ x :: t, t.foldl min x ≤ y := by
  intro t
  induction t with
  | nil => intro x; simp
  | cons z t ih =>
    intro x
    obtain ⟨h1, h2⟩ := ih (min x z)
    constructor
    · show t.foldl min (min x z) ∈ x :: z :: t
      rcases List.mem_cons.mp h1 with h | h
      · rw [h]
        rcases min_choice x z with hm | hm <;> rw [hm] <;> simp
      · simp [h]
    · intro y hy
      show t.foldl min (min x z) ≤ y
      rcases List.mem_cons.mp hy with h | h
      · rw [h]
        exact le_trans (h2 _ (by simp)) (min_le_left x z)
      · rcases List.mem_cons.mp h with h | h
        · rw [h]
          exact le_trans (h2 _ (by simp)) (min_le_right x z)
        · exact h2 _ (by simp [h])

/-- `max?` returns the stated element when it is a member bounding the
list. -/
theorem max?_eq_of {l : List Int} {a : Int} (ha : a ∈ l) (hb : ∀ y ∈ l, y ≤ a) :
    l.max? = some a := by
  cases l with
  | nil => simp at ha
  | cons x t =>
    obtain ⟨h1, h2⟩ := foldl_max_spec t x
    have heq : t.foldl max x = a := le_antisymm (hb _ h1) (h2 a ha)
    show some (t.foldl max x) = some a
    rw [heq]

/-- `min?` returns the stated element when it is a member below the list. -/
theorem min?_eq_of {l : List Int} {a : Int} (ha : a ∈ l) (hb : ∀ y ∈ l, a ≤ y) :
    l.min? = some a := by
  cases l with
  | nil => simp at ha
  | cons x t =>
    obtain ⟨h1, h2⟩ := foldl_min_spec t x
    have heq : t.foldl min x = a := le_antisymm (h2 a ha) (hb _ h1)
    show some (t.foldl min x) = some a
    rw [heq]

/-- A filter whose predicate holds exactly on an index prefix is `take`. -/
theorem filter_eq_take_of (p : Int → Bool) :
    ∀ (l : List Int) (c : Nat), c ≤ l.length →
      (∀ k (hk : k < l.length), p l[k] = true ↔ k < c) →
      l.filter p = l.take c := by
  intro l
  induction l with
  | nil => intro c hc _; simp at hc; simp [hc]
  | cons x t ih =>
    intro c hc hp
    cases c with
    | zero =>
      have hx : p x = false := by
        have := (hp 0 (by simp)).not
        simp only [List.getElem_cons_zero] at this
        simpa using this.mpr (by omega)
      rw [List.take_zero, List.filter_cons_of_neg (by simp [hx])]
      rw [List.filter_eq_nil_iff]
      intro a ha
      obtain ⟨k, hk, hak⟩ := List.mem_iff_getElem.mp ha
      have := (hp (k + 1) (by simpa using Nat.succ_lt_succ hk)).not
      simp only [List.getElem_cons_succ] at this
      rw [hak] at this
      simpa using this.mpr (by omega)
    | succ c' =>
      have hx : p x = true := by
        have := hp 0 (by simp)
        simp only [List.getElem_cons_zero] at this
        exact this.mpr (by omega)
      rw [List.take_succ_cons, List.filter_cons_of_pos (by simp [hx])]
      congr 1
      refine ih c' (by simpa using Nat.succ_le_succ_iff.mp hc) ?_
      intro k hk
      have := hp (k + 1) (by simpa using Nat.succ_lt_succ hk)
      simp only [List.getElem_cons_succ] at this
      rw [this]
      omega
  
/-- A filter whose predicate holds exactly on an index suffix is `drop`. -/
theorem filter_eq_drop_of (p : Int → Bool) :
    ∀ (l : List Int) (c : Nat), c ≤ l.length →
      (∀ k (hk : k < l.length), p l[k] = true ↔ c ≤ k) →
      l.filter p = l.drop c := by
  intro l
  induction l with
  | nil => intro c hc _; simp at hc; simp [hc]
  | cons x t ih =>
    intro c hc hp
    cases c with
    | zero =>
      rw [List.drop_zero, List.filter_eq_self]
      intro a ha
      obtain ⟨k, hk, hak⟩ := List.mem_iff_getElem.mp ha
      rw [← hak]
      exact (hp k hk).mpr (by omega)
    | succ c' =>
      have hx : p x = false := by
        have := (hp 0 (by simp)).not
        simp only [List.getElem_cons_zero] at this
        simpa using this.mpr (by omega)
      rw [List.drop_succ_cons, List.filter_cons_of_neg (by simp [hx])]
      refine ih c' (by simpa using Nat.succ_le_succ_iff.mp hc) ?_
      intro k hk
      have := hp (k + 1) (by simpa using Nat.succ_lt_succ hk)
      simp only [List.getElem_cons_succ] at this
      rw [this]
      omega

/-- Interleaved lists have equal length. -/
theorem ilv_length : ∀ (ps : List Int) (lo : Int) (vs : List Int),
    IlvFrom lo ps vs → ps.length = vs.length := by
  intro ps
  induction ps with
  | nil =>
    intro lo vs h
    cases vs with
    | nil => rfl
    | cons v vs => simp [IlvFrom] at h
  | cons p ps ih =>
    intro lo vs h
    cases vs with
    | nil => simp [IlvFrom] at h
    | cons v vs =>
      obtain ⟨_, _, h3⟩ := h
      simp [ih _ _ h3]

/-- The lower bound of an interleaving can be weakened. -/
theorem ilv_mono : ∀ (ps : List Int) (lo lo' : Int) (vs : List Int),
    lo' ≤ lo → IlvFrom lo ps vs → IlvFrom lo' ps vs := by
  intro ps
  induction ps with
  | nil =>
    intro lo lo' vs hle h
    cases vs with
    | nil => trivial
    | cons v vs => simp [IlvFrom] at h
  | cons p ps _ =>
    intro lo lo' vs hle h
    cases vs with
    | nil => simp [IlvFrom] at h
    | cons v vs =>
      obtain ⟨h1, h2, h3⟩ := h
      exact ⟨by omega, h2, h3⟩

/-- Pointwise ordering facts of an interleaving: each peak is above the
lower bound, below its paired valley, and each valley below the next
peak. -/
theorem ilv_getElem : ∀ (ps : List Int) (lo : Int) (vs : List Int),
    IlvFrom lo ps vs →
    ∀ k (hk : k < ps.length) (hk2 : k < vs.length),
      lo ≤ ps[k] ∧ ps[k] < vs[k] ∧
        ∀ (hk3 : k + 1 < ps.length), vs[k] < ps[k + 1] := by
  intro ps
  induction ps with
  | nil => intro lo vs h k hk; simp at hk
  | cons p ps ih =>
    intro lo vs h k hk hk2
    cases vs with
    | nil => simp [IlvFrom] at h
    | cons v vs =>
      obtain ⟨h1, h2, h3⟩ := h
      cases k with
      | zero =>
        refine ⟨by simpa using h1, by simpa using h2, ?_⟩
        intro hk3
        have hlen := ilv_length ps (v + 1) vs h3
        have hps : 0 < ps.length := by simpa using Nat.lt_of_succ_lt_succ hk3
        have := (ih (v + 1) vs h3 0 hps (by omega)).1
        simp only [List.getElem_cons_zero, List.getElem_cons_succ]
        omega
      | succ k' =>
        have hlen := ilv_length ps (v + 1) vs h3
        have hk' : k' < ps.length := by simpa using Nat.lt_of_succ_lt_succ hk
        have hmain := ih (v + 1) vs h3 k' hk' (by omega)
        simp only [List.getElem_cons_succ]
        refine ⟨by have := hmain.1; omega, hmain.2.1, ?_⟩
        intro hk3
        exact hmain.2.2 (by simpa using Nat.lt_of_succ_lt_succ hk3)

/-- Strict monotonicity from adjacent increases. -/
theorem getElem_strict_mono_of_adjacent (l : List Int)
    (h : ∀ k (hk : k + 1 < l.length), l[k] < l[k + 1]) :
    ∀ a b (hab : a < b) (hb : b < l.length),
      l[a] < l[b] := by
  intro a b
  induction b with
  | zero => intro hab; omega
  | succ b' ih =>
    intro hab hb
    rcases Nat.lt_or_ge a b' with h1 | h1
    · exact lt_trans (ih h1 (by omega)) (h b' hb)
    · have : a = b' := by omega
      subst this
      exact h a hb

/-- Adjacent peaks increase strictly. -/
theorem ilv_p_adj {lo : Int} {ps vs : List Int} (h : IlvFrom lo ps vs) :
    ∀ k (hk : k + 1 < ps.length), ps[k] < ps[k + 1] := by
  intro k hk
  have hlen := ilv_length ps lo vs h
  have h1 := ilv_getElem ps lo vs h k (by omega) (by omega)
  have := h1.2.2 hk
  have := h1.2.1
  omega

/-- Adjacent valleys increase strictly. -/
theorem ilv_v_adj {lo : Int} {ps vs : List Int} (h : IlvFrom lo ps vs) :
    ∀ k (hk : k + 1 < vs.length), vs[k] < vs[k + 1] := by
  intro k hk
  have hlen := ilv_length ps lo vs h
  have h1 := ilv_getElem ps lo vs h k (by omega) (by omega)
  have h2 := ilv_getElem ps lo vs h (k + 1) (by omega) hk
  have := h1.2.2 (by omega)
  have := h2.2.1
  omega

/-- Weak monotonicity of peak positions. -/
theorem ilv_p_mono {lo : Int} {ps vs : List Int} (h : IlvFrom lo ps vs)
    {a b : Nat} (hab : a ≤ b) (hb : b < ps.length) : ps[a] ≤ ps[b] := by
  rcases Nat.eq_or_lt_of_le hab with he | hl
  · subst he; exact le_refl _
  · exact le_of_lt (getElem_strict_mono_of_adjacent ps (ilv_p_adj h) a b hl hb)

/-- Weak monotonicity of valley positions. -/
theorem ilv_v_mono {lo : Int} {ps vs : List Int} (h : IlvFrom lo ps vs)
    {a b : Nat} (hab : a ≤ b) (hb : b < vs.length) : vs[a] ≤ vs[b] := by
  rcases Nat.eq_or_lt_of_le hab with he | hl
  · subst he; exact le_refl _
  · exact le_of_lt (getElem_strict_mono_of_adjacent vs (ilv_v_adj h) a b hl hb)

/-- A peak is strictly below every valley from its position on. -/
theorem ilv_p_lt_v {lo : Int} {ps vs : List Int} (h : IlvFrom lo ps vs)
    {a b : Nat} (hab : a ≤ b) (hb : b < vs.length)
    (hlen : ps.length = vs.length) :
    ps[a] < vs[b] := by
  have h1 := (ilv_getElem ps lo vs h b (by omega) hb).2.1
  have h2 := ilv_p_mono h hab (by omega)
  omega

/-- A valley is strictly below every later peak. -/
theorem ilv_v_lt_p {lo : Int} {ps vs : List Int} (h : IlvFrom lo ps vs)
    {a b : Nat} (hab : a < b) (hb : b < ps.length)
    (hlen : ps.length = vs.length) :
    vs[a] < ps[b] := by
  have h1 := (ilv_getElem ps lo vs h a (by omega) (by omega)).2.2 (by omega)
  have h2 := ilv_p_mono h (show a + 1 ≤ b by omega) hb
  omega

/-- On a strictly increasing list, filtering out the value at one index is
erasing that index. -/
theorem filter_ne_eq_eraseIdx :
    ∀ (l : List Int), (∀ k (hk : k + 1 < l.length), l[k] < l[k + 1]) →
    ∀ (j : Nat) (hj : j < l.length),
      l.filter (fun a => a ≠ l[j]) = l.eraseIdx j := by
  intro l
  induction l with
  | nil => intro _ j hj; simp at hj
  | cons x t ih =>
    intro hadj j hj
    have hadj2 : ∀ k (hk : k + 1 < t.length), t[k] < t[k + 1] := by
      intro k hk
      have := hadj (k + 1) (by simpa using Nat.succ_lt_succ hk)
      simpa using this
    cases j with
    | zero =>
      simp only [List.getElem_cons_zero, List.eraseIdx_cons_zero]
      rw [List.filter_cons_of_neg (by simp)]
      rw [List.filter_eq_self]
      intro a ha
      obtain ⟨k, hk, hak⟩ := List.mem_iff_getElem.mp ha
      have hx : x < t[k] := by
        have := getElem_strict_mono_of_adjacent (x :: t) hadj 0 (k + 1)
          (by omega) (by simpa using Nat.succ_lt_succ hk)
        simpa using this
      rw [← hak]
      simp only [ne_eq, decide_eq_true_eq]
      omega
    | succ j' =>
      have hj2 : j' < t.length := by simpa using Nat.lt_of_succ_lt_succ hj
      simp only [List.getElem_cons_succ, List.eraseIdx_cons_succ]
      have hx : x < t[j'] := by
        have := getElem_strict_mono_of_adjacent (x :: t) hadj 0 (j' + 1)
          (by omega) (by simpa using Nat.succ_lt_succ hj2)
        simpa using this
      rw [List.filter_cons_of_pos (by simp only [ne_eq, decide_eq_true_eq]; omega)]
      congr 1
      exact ih hadj2 j' hj2

/-- Erasing a peak/valley pair at the same index preserves the
interleaving. -/
theorem ilv_eraseIdx_both : ∀ (ps : List Int) (lo : Int) (vs : List Int) (j : Nat),
    IlvFrom lo ps vs → IlvFrom lo (ps.eraseIdx j) (vs.eraseIdx j) := by
  intro ps
  induction ps with
  | nil =>
    intro lo vs j h
    cases vs with
    | nil => simp [List.eraseIdx]; trivial
    | cons v vs => simp [IlvFrom] at h
  | cons p ps ih =>
    intro lo vs j h
    cases vs with
    | nil => simp [IlvFrom] at h
    | cons v vs =>
      obtain ⟨h1, h2, h3⟩ := h
      cases j with
      | zero =>
        simp only [List.eraseIdx_cons_zero]
        exact ilv_mono ps (v + 1) lo vs (by omega) h3
      | succ j' =>
        simp only [List.eraseIdx_cons_succ]
        exact ⟨h1, h2, ih (v + 1) vs j' h3⟩

/-- Erasing the peak after a valley together with that valley preserves the
interleaving. -/
theorem ilv_eraseIdx_shift : ∀ (ps : List Int) (lo : Int) (vs : List Int) (j : Nat),
    IlvFrom lo ps vs → j + 1 < ps.length →
    IlvFrom lo (ps.eraseIdx (j + 1)) (vs.eraseIdx j) := by
  intro ps
  induction ps with
  | nil => intro lo vs j _ hj; simp at hj
  | cons p ps ih =>
    intro lo vs j h hj
    cases vs with
    | nil => simp [IlvFrom] at h
    | cons v vs =>
      obtain ⟨h1, h2, h3⟩ := h
      cases j with
      | zero =>
        simp only [List.eraseIdx_cons_succ, List.eraseIdx_cons_zero]
        cases ps with
        | nil => simp at hj
        | cons p2 ps2 =>
          cases vs with
          | nil => simp [IlvFrom] at h3
          | cons v2 vs2 =>
            obtain ⟨g1, g2, g3⟩ := h3
            simp only [List.eraseIdx_cons_zero]
            exact ⟨h1, by omega, g3⟩
      | succ j' =>
        simp only [List.eraseIdx_cons_succ]
        refine ⟨h1, h2, ih (v + 1) vs j' h3 ?_⟩
        simpa using Nat.lt_of_succ_lt_succ hj

/-- Under the invariant, the minimum of the valleys is the first valley. -/
theorem ilv_min_vs {ps vs : List Int} (hI : IlvFrom 0 ps vs)
    (h0 : 0 < vs.length) : vs.min? = some vs[0] := by
  apply min?_eq_of (List.getElem_mem h0)
  intro y hy
  obtain ⟨k, hk, hky⟩ := List.mem_iff_getElem.mp hy
  rw [← hky]
  exact ilv_v_mono hI (Nat.zero_le k) hk

/-- Under the invariant, the maximum of the peaks is the last peak. -/
theorem ilv_max_ps {ps vs : List Int} (hI : IlvFrom 0 ps vs)
    (h0 : 0 < ps.length) : ps.max? = some ps[ps.length - 1] := by
  apply max?_eq_of (List.getElem_mem (by omega))
  intro y hy
  obtain ⟨k, hk, hky⟩ := List.mem_iff_getElem.mp hy
  rw [← hky]
  exact ilv_p_mono hI (by omega) (by omega)

/-- Under the invariant, the valleys strictly before the cursor's peak are
exactly the first `c` valleys, whose maximum is valley `c - 1`. -/
theorem ilv_vl_eval {ps vs : List Int} {c : Nat} (hI : IlvFrom 0 ps vs)
    (hcL : c < ps.length) (hc1 : 1 ≤ c)
    (hlen : ps.length = vs.length) :
    (vs.filter (fun a => decide (a < ps[c]))).max? = some (vs[c - 1]) := by
  have hfe : vs.filter (fun a => decide (a < ps[c])) = vs.take c := by
    apply filter_eq_take_of _ vs c (by omega)
    intro k hk
    simp only [decide_eq_true_eq]
    constructor
    · intro hlt
      by_contra hge
      have := ilv_p_lt_v hI (show c ≤ k by omega) hk hlen
      omega
    · intro hkc
      exact ilv_v_lt_p hI hkc hcL hlen
  rw [hfe]
  have hlt : (vs.take c).length = c := by
    rw [List.length_take]
    omega
  apply max?_eq_of
  · rw [List.mem_iff_getElem]
    refine ⟨c - 1, by omega, ?_⟩
    rw [List.getElem_take]
  · intro y hy
    obtain ⟨k, hk, hky⟩ := List.mem_iff_getElem.mp hy
    rw [← hky, List.getElem_take]
    exact ilv_v_mono hI (by omega) (by omega)

/-- Under the invariant, the valleys strictly after the cursor's peak are
exactly the valleys from position `c` on, whose minimum is valley `c`. -/
theorem ilv_vr_eval {ps vs : List Int} {c : Nat} (hI : IlvFrom 0 ps vs)
    (hcL : c < ps.length) (hlen : ps.length = vs.length) :
    (vs.filter (fun a => decide (ps[c] < a))).min? = some (vs[c]) := by
  have hfe : vs.filter (fun a => decide (ps[c] < a)) = vs.drop c := by
    apply filter_eq_drop_of _ vs c (by omega)
    intro k hk
    simp only [decide_eq_true_eq]
    constructor
    · intro hlt
      by_contra hge
      have := ilv_v_lt_p hI (show k < c by omega) hcL hlen
      omega
    · intro hkc
      exact ilv_p_lt_v hI hkc hk hlen
  rw [hfe]
  apply min?_eq_of
  · rw [List.mem_iff_getElem]
    refine ⟨0, by simp [List.length_drop]; omega, ?_⟩
    rw [List.getElem_drop]
    simp
  · intro y hy
    obtain ⟨k, hk, hky⟩ := List.mem_iff_getElem.mp hy
    rw [← hky, List.getElem_drop]
    exact ilv_v_mono hI (by omega) (by simp [List.length_drop] at hk ⊢; omega)

/-- Under the invariant, the peaks strictly before valley `j` are exactly the
first `j + 1` peaks, whose maximum is peak `j`. -/
theorem ilv_lp_eval {ps vs : List Int} {j : Nat} (hI : IlvFrom 0 ps vs)
    (hjv : j < vs.length) (hlen : ps.length = vs.length) :
    (ps.filter (fun a => decide (a < vs[j]))).max? = some (ps[j]) := by
  have hfe : ps.filter (fun a => decide (a < vs[j])) = ps.take (j + 1) := by
    apply filter_eq_take_of _ ps (j + 1) (by omega)
    intro k hk
    simp only [decide_eq_true_eq]
    constructor
    · intro hlt
      by_contra hge
      have := ilv_v_lt_p hI (show j < k by omega) hk hlen
      omega
    · intro hkc
      exact ilv_p_lt_v hI (by omega) hjv hlen
  rw [hfe]
  apply max?_eq_of
  · rw [List.mem_iff_getElem]
    have hlt : (ps.take (j + 1)).length = j + 1 := by
      rw [List.length_take]
      omega
    refine ⟨j, by omega, ?_⟩
    rw [List.getElem_take]
  · intro y hy
    obtain ⟨k, hk, hky⟩ := List.mem_iff_getElem.mp hy
    rw [← hky, List.getElem_take]
    have hkb : k ≤ j := by
      rw [List.length_take] at hk
      omega
    exact ilv_p_mono hI hkb (by omega)

/-- Under the invariant, the peaks strictly after valley `j` are exactly the
peaks from position `j + 1` on, whose minimum is peak `j + 1`. -/
theorem ilv_rp_eval {ps vs : List Int} {j : Nat} (hI : IlvFrom 0 ps vs)
    (hj1 : j + 1 < ps.length) (hlen : ps.length = vs.length) :
    (ps.filter (fun a => decide (vs[j] < a))).min? =
      some ps[j + 1] := by
  have hfe : ps.filter (fun a => decide (vs[j] < a)) = ps.drop (j + 1) := by
    apply filter_eq_drop_of _ ps (j + 1) (by omega)
    intro k hk
    simp only [decide_eq_true_eq]
    constructor
    · intro hlt
      by_contra hge
      have := ilv_p_lt_v hI (show k ≤ j by omega) (show j < vs.length by omega) hlen
      omega
    · intro hkc
      exact ilv_v_lt_p hI (by omega) hk hlen
  rw [hfe]
  apply min?_eq_of
  · rw [List.mem_iff_getElem]
    refine ⟨0, by simp [List.length_drop]; omega, ?_⟩
    rw [List.getElem_drop]
  · intro y hy
    obtain ⟨k, hk, hky⟩ := List.mem_iff_getElem.mp hy
    rw [← hky, List.getElem_drop]
    exact ilv_p_mono hI (by omega) (by simp [List.length_drop] at hk ⊢; omega)

/-- The removal tail, started on an interleaved state at any existing valley,
always removes exactly one peak and one valley, steps the cursor back one
(clamped), and preserves the interleaving invariant. -/
theorem pvRemoveStep_invariant (s : List ℚ) (c : Nat) (ps vs : List Int)
    (hI : IlvFrom 0 ps vs) (j : Nat) (hjv : j < vs.length) :
    ∃ ps2 vs2, pvRemoveStep s c ps vs vs[j] = .next (c - 1) ps2 vs2 ∧
      IlvFrom 0 ps2 vs2 ∧ ps2.length + 1 = ps.length ∧ vs2.length + 1 = vs.length := by
  have hlen := ilv_length ps 0 vs hI
  have hjp : j < ps.length := by omega
  have hvsfe : vs.filter (fun a => decide (a ≠ vs[j])) = vs.eraseIdx j :=
    filter_ne_eq_eraseIdx vs (ilv_v_adj hI) j hjv
  have hvslen : (vs.eraseIdx j).length + 1 = vs.length := by
    rw [List.length_eraseIdx_of_lt hjv]
    omega
  simp only [pvRemoveStep]
  rw [ilv_lp_eval hI hjv hlen, ilv_max_ps hI (by omega)]
  simp only []
  by_cases hlast : ps[ps.length - 1] < vs[j]
  · rw [if_pos hlast]
    have hpsfe : ps.filter (fun a => decide (a ≠ ps[j])) = ps.eraseIdx j :=
      filter_ne_eq_eraseIdx ps (ilv_p_adj hI) j hjp
    refine ⟨ps.eraseIdx j, vs.eraseIdx j, ?_, ilv_eraseIdx_both ps 0 vs j hI, ?_, hvslen⟩
    · rw [hpsfe, hvsfe]
    · rw [List.length_eraseIdx_of_lt hjp]
      omega
  · rw [if_neg hlast]
    have hjlast : j + 1 < ps.length := by
      rcases Nat.lt_or_ge (j + 1) ps.length with h | h
      · exact h
      · exfalso
        exact hlast (ilv_p_lt_v hI (show ps.length - 1 ≤ j by omega) hjv hlen)
    rw [ilv_rp_eval hI hjlast hlen]
    simp only []
    by_cases hcmp : sigGet s ps[j] < sigGet s ps[j + 1]
    · rw [if_pos hcmp]
      have hpsfe : ps.filter (fun a => decide (a ≠ ps[j])) = ps.eraseIdx j :=
        filter_ne_eq_eraseIdx ps (ilv_p_adj hI) j hjp
      refine ⟨ps.eraseIdx j, vs.eraseIdx j, ?_, ilv_eraseIdx_both ps 0 vs j hI, ?_, hvslen⟩
      · rw [hpsfe, hvsfe]
      · rw [List.length_eraseIdx_of_lt hjp]
        omega
    · rw [if_neg hcmp]
      have hpsfe : ps.filter (fun a => decide (a ≠ ps[j + 1])) = ps.eraseIdx (j + 1) :=
        filter_ne_eq_eraseIdx ps (ilv_p_adj hI) (j + 1) hjlast
      refine ⟨ps.eraseIdx (j + 1), vs.eraseIdx j, ?_,
        ilv_eraseIdx_shift ps 0 vs j hI hjlast, ?_, hvslen⟩
      · rw [hpsfe, hvsfe]
      · rw [List.length_eraseIdx_of_lt hjlast]
        omega

/-- One refinement-loop iteration from an interleaved state: it either halts
normally with the lists unchanged (cursor past the end), advances the cursor
over an accepted peak, or removes exactly one peak and one valley, stepping
the cursor back at most one position — and the interleaving invariant is
preserved in every case. -/
theorem pvStep_invariant (s : List ℚ) (test : List ℚ → Int → Int → Bool)
    (c : Nat) (ps vs : List Int) (hI : IlvFrom 0 ps vs) :
    (pvStep s test c ps vs = .halt (.done ps vs) ∧ ps.length ≤ c) ∨
    (pvStep s test c ps vs = .next (c + 1) ps vs ∧ c < ps.length) ∨
    (∃ ps2 vs2, pvStep s test c ps vs = .next (c - 1) ps2 vs2 ∧ IlvFrom 0 ps2 vs2 ∧
      ps2.length + 1 = ps.length ∧ vs2.length + 1 = vs.length ∧ c < ps.length) := by
  have hlen := ilv_length ps 0 vs hI
  by_cases hc : (ps.length : Int) - 1 < (c : Int)
  · left
    refine ⟨?_, by omega⟩
    simp only [pvStep]
    rw [if_pos hc]
  · have hcL : c < ps.length := by omega
    have hcv : c < vs.length := by omega
    have hv0 : 0 < vs.length := by omega
    have hgd : ps.getD c 0 = ps[c] := List.getD_eq_getElem ps 0 hcL
    right
    simp only [pvStep]
    rw [if_neg hc, ilv_min_vs hI hv0]
    simp only [hgd]
    by_cases hc0 : c = 0
    · subst hc0
      have hplt : ps[0] < vs[0] := (ilv_getElem ps 0 vs hI 0 hcL hcv).2.1
      rw [if_pos hplt]
      simp only []
      rw [ilv_vr_eval hI hcL hlen]
      simp only []
      cases ht : test s ps[0] vs[0] with
      | true =>
        left
        refine ⟨?_, hcL⟩
        rw [if_pos (by simp)]
      | false =>
        right
        rw [if_neg (by simp)]
        obtain ⟨ps2, vs2, heq, hI2, hl1, hl2⟩ := pvRemoveStep_invariant s 0 ps vs hI 0 hv0
        exact ⟨ps2, vs2, heq, hI2, hl1, hl2, hcL⟩
    · have hc1 : 1 ≤ c := by omega
      have hcv1 : c - 1 < vs.length := by omega
      have hnlt : ¬ (ps[c] < vs[0]) := by
        have := ilv_v_lt_p hI (show 0 < c by omega) hcL hlen
        omega
      rw [if_neg hnlt]
      rw [ilv_vl_eval hI hcL hc1 hlen]
      simp only []
      rw [ilv_vr_eval hI hcL hlen]
      simp only []
      cases ht1 : test s ps[c] (vs[c - 1]) with
      | true =>
        cases ht2 : test s ps[c] vs[c] with
        | true =>
          left
          refine ⟨?_, hcL⟩
          rw [if_pos (by simp)]
        | false =>
          right
          rw [if_neg (by simp)]
          obtain ⟨ps2, vs2, heq, hI2, hl1, hl2⟩ :=
            pvRemoveStep_invariant s c ps vs hI c hcv
          exact ⟨ps2, vs2, heq, hI2, hl1, hl2, hcL⟩
      | false =>
        right
        rw [if_neg (by simp)]
        cases ht2 : test s ps[c] vs[c] with
        | true =>
          obtain ⟨ps2, vs2, heq, hI2, hl1, hl2⟩ :=
            pvRemoveStep_invariant s c ps vs hI (c - 1) hcv1
          exact ⟨ps2, vs2, heq, hI2, hl1, hl2, hcL⟩
        | false =>
          have hun : selectValley s (!false) (!false) (vs[c - 1]) vs[c] =
              if sigGet s vs[c] < sigGet s (vs[c - 1])
              then vs[c - 1] else vs[c] := rfl
          rw [hun]
          by_cases hcmp : sigGet s vs[c] < sigGet s (vs[c - 1])
          · rw [if_pos hcmp]
            obtain ⟨ps2, vs2, heq, hI2, hl1, hl2⟩ :=
              pvRemoveStep_invariant s c ps vs hI (c - 1) hcv1
            exact ⟨ps2, vs2, heq, hI2, hl1, hl2, hcL⟩
          · rw [if_neg hcmp]
            obtain ⟨ps2, vs2, heq, hI2, hl1, hl2⟩ :=
              pvRemoveStep_invariant s c ps vs hI c hcv
            exact ⟨ps2, vs2, heq, hI2, hl1, hl2, hcL⟩

/-- With fuel at least `2·len(peaks) + 1 - cursor` the refinement loop
terminates normally from any interleaved state, and the result is
interleaved. -/
theorem pvLoop_invariant (s : List ℚ) (test : List ℚ → Int → Int → Bool) :
    ∀ (fuel c : Nat) (ps vs : List Int), IlvFrom 0 ps vs →
      2 * ps.length + 1 - c ≤ fuel → 1 ≤ fuel →
      ∃ ps2 vs2, pvLoop s test fuel c ps vs = .done ps2 vs2 ∧ IlvFrom 0 ps2 vs2 := by
  intro fuel
  induction fuel with
  | zero => intro c ps vs _ _ h1; omega
  | succ n ih =>
    intro c ps vs hI hm _
    rcases pvStep_invariant s test c ps vs hI with
      ⟨heq, hle⟩ | ⟨heq, hlt⟩ | ⟨ps1, vs1, heq, hI1, hl1, hl2, hlt⟩
    · refine ⟨ps, vs, ?_, hI⟩
      simp only [pvLoop]
      rw [heq]
    · obtain ⟨ps2, vs2, heq2, hI2⟩ := ih (c + 1) ps vs hI (by omega) (by omega)
      refine ⟨ps2, vs2, ?_, hI2⟩
      simp only [pvLoop]
      rw [heq]
      exact heq2
    · obtain ⟨ps2, vs2, heq2, hI2⟩ := ih (c - 1) ps1 vs1 hI1 (by omega) (by omega)
      refine ⟨ps2, vs2, ?_, hI2⟩
      simp only [pvLoop]
      rw [heq]
      exact heq2

/-- Whenever the refinement loop returns normally from an interleaved state,
with any fuel, the returned lists are interleaved. -/
theorem pvLoop_done_inv (s : List ℚ) (test : List ℚ → Int → Int → Bool) :
    ∀ (fuel c : Nat) (ps vs ps2 vs2 : List Int), IlvFrom 0 ps vs →
      pvLoop s test fuel c ps vs = .done ps2 vs2 → IlvFrom 0 ps2 vs2 := by
  intro fuel
  induction fuel with
  | zero => intro c ps vs ps2 vs2 _ h; simp [pvLoop] at h
  | succ n ih =>
    intro c ps vs ps2 vs2 hI h
    simp only [pvLoop] at h
    rcases pvStep_invariant s test c ps vs hI with
      ⟨heq, _⟩ | ⟨heq, _⟩ | ⟨ps1, vs1, heq, hI1, _, _, _⟩
    · rw [heq] at h
      simp only [] at h
      obtain ⟨h1, h2⟩ := PVResult.done.inj h
      rw [← h1, ← h2]
      exact hI
    · rw [heq] at h
      exact ih _ _ _ _ _ hI h
    · rw [heq] at h
      exact ih _ _ _ _ _ hI1 h

/-- The lower bound of a run decomposition can be weakened. -/
theorem runPairs_mono (f : Int → Int) :
    ∀ (pr : List (Int × Int)) (lo lo' hi : Int), lo' ≤ lo →
      RunPairs f lo hi pr → RunPairs f lo' hi pr := by
  intro pr
  induction pr with
  | nil => intro lo lo' hi _ _; trivial
  | cons p rest _ =>
    intro lo lo' hi hle h
    obtain ⟨u, w⟩ := p
    obtain ⟨h1, h2, h3, h4, h5, h6, h7⟩ := h
    exact ⟨by omega, h2, h3, h4, h5, h6, h7⟩

/-- A run decomposition yields the `AltUV` alternation shape of the two
reported index lists. -/
theorem runPairs_altuv (f : Int → Int) :
    ∀ (pr : List (Int × Int)) (lo hi : Int),
      RunPairs f lo hi pr → AltUV lo (pr.map Prod.fst) (pr.map Prod.snd) := by
  intro pr
  induction pr with
  | nil => intro lo hi _; trivial
  | cons p rest ih =>
    intro lo hi h
    obtain ⟨u, w⟩ := p
    obtain ⟨h1, h2, _, _, _, _, h7⟩ := h
    exact ⟨h1, h2, ih _ _ h7⟩

/-- Membership version of the run decomposition: every reported pair is a
maximal run of 1s of `f` inside `[lo, hi)`. -/
theorem runPairs_mem (f : Int → Int) :
    ∀ (pr : List (Int × Int)) (lo hi : Int), RunPairs f lo hi pr →
      ∀ u w, (u, w) ∈ pr →
        lo ≤ u ∧ u ≤ w ∧ w + 2 ≤ hi ∧ f (u - 1) = 0 ∧
          (∀ j, u ≤ j → j ≤ w → f j = 1) ∧ f (w + 1) = 0 := by
  intro pr
  induction pr with
  | nil => intro lo hi _ u w hm; simp at hm
  | cons p rest ih =>
    intro lo hi h u w hm
    obtain ⟨u0, w0⟩ := p
    obtain ⟨h1, h2, h3, h4, h5, h6, h7⟩ := h
    rcases List.mem_cons.mp hm with heq | hm2
    · obtain ⟨rfl, rfl⟩ := Prod.mk.inj heq
      exact ⟨h1, h2, h3, h4, h5, h6⟩
    · have := ih _ _ h7 u w hm2
      exact ⟨by omega, this.2.1, this.2.2.1, this.2.2.2.1, this.2.2.2.2.1, this.2.2.2.2.2⟩

/-- One unfolding step of the index scan. -/
theorem upDown_cons (prev i x : Int) (rest : List Int) :
    upDown prev i (x :: rest) =
      (if x - prev = 1 then i :: (upDown x (i + 1) rest).1 else (upDown x (i + 1) rest).1,
       if x - prev = -1 then (i - 1) :: (upDown x (i + 1) rest).2
       else (upDown x (i + 1) rest).2) := by
  simp [upDown]

/-- The last entry of a non-empty tail determines the last entry of the
cons. -/
theorem getLast_cons_ne_nil {x : Int} {rest : List Int} (h : rest ≠ []) :
    (x :: rest).getLast? = rest.getLast? := by
  cases rest with
  | nil => exact absurd rfl h
  | cons y ys => exact List.getLast?_cons_cons

/-- Characterisation of the `sign_changes` index scan on a 0/1 slice: if `l`
is the slice of the valuation `f` at absolute indices `[i, hi)` and ends in
a 0, then a scan started "below" (`f (i-1) = 0`) reports exactly the fronts
and backs of the maximal-run decomposition of `f` on `[i, hi)`; a scan
started "above" (`f (i-1) = 1`) additionally produces one pending down
report, closing the run in progress at position `i - 1` or later. -/
theorem upDown_runs (l : List Int) :
    ∀ (i hi : Int) (f : Int → Int),
      hi = i + l.length →
      (∀ k : Nat, k < l.length → l.getD k 0 = f (i + k)) →
      (∀ x ∈ l, x = 0 ∨ x = 1) →
      ((f (i - 1) = 0 → (l.getLast? = some 0 ∨ l = []) →
         ∃ pr, upDown 0 i l = (pr.map Prod.fst, pr.map Prod.snd) ∧ RunPairs f i hi pr) ∧
       (f (i - 1) = 1 → l.getLast? = some 0 →
         ∃ w pr, upDown 1 i l = (pr.map Prod.fst, w :: pr.map Prod.snd) ∧
           i - 1 ≤ w ∧ w + 2 ≤ hi ∧ (∀ j, i ≤ j → j ≤ w → f j = 1) ∧
           f (w + 1) = 0 ∧ RunPairs f (w + 2) hi pr)) := by
  induction l with
  | nil =>
    intro i hi f _ _ _
    constructor
    · intro _ _
      exact ⟨[], rfl, trivial⟩
    · intro _ hlast
      simp at hlast
  | cons x rest ih =>
    intro i hi f hhi hvals h01
    have hfi : f i = x := by
      have h := hvals 0 (by simp)
      simpa using h.symm
    have hhi2 : hi = i + 1 + (rest.length : Int) := by
      push_cast [List.length_cons] at hhi
      omega
    have hrest_vals : ∀ k : Nat, k < rest.length → rest.getD k 0 = f (i + 1 + k) := by
      intro k hk
      have h := hvals (k + 1) (by simp [List.length_cons]; omega)
      rw [List.getD_cons_succ] at h
      rw [h]
      congr 1
      push_cast
      ring
    have h01' : ∀ x' ∈ rest, x' = 0 ∨ x' = 1 :=
      fun x' hx' => h01 x' (List.mem_cons_of_mem _ hx')
    have hx01 : x = 0 ∨ x = 1 := h01 x (List.mem_cons_self x rest)
    constructor
    · -- scan started below
      intro hprev hlast
      rcases hx01 with rfl | rfl
      · -- current sample 0: no event
        have hstep : upDown 0 i ((0 : Int) :: rest) = upDown 0 (i + 1) rest := by
          rw [upDown_cons, if_neg (by decide), if_neg (by decide)]
        rcases rest with _ | ⟨y, rest'⟩
        · exact ⟨[], by rw [hstep]; rfl, trivial⟩
        · have hlast2 : (y :: rest').getLast? = some 0 := by
            rcases hlast with hlast | habs
            · rw [getLast_cons_ne_nil (by simp)] at hlast
              exact hlast
            · simp at habs
          obtain ⟨pr, heq, hrp⟩ :=
            (ih (i + 1) hi f hhi2 hrest_vals h01').1
              (by rw [show i + 1 - 1 = i by ring, hfi]) (Or.inl hlast2)
          exact ⟨pr, hstep.trans heq, runPairs_mono f pr (i + 1) i hi (by omega) hrp⟩
      · -- current sample 1: up event at i
        have hstep : upDown 0 i ((1 : Int) :: rest) =
            (i :: (upDown 1 (i + 1) rest).1, (upDown 1 (i + 1) rest).2) := by
          rw [upDown_cons, if_pos (by decide), if_neg (by decide)]
        rcases rest with _ | ⟨y, rest'⟩
        · rcases hlast with hlast | habs
          · simp [List.getLast?_singleton] at hlast
          · simp at habs
        · have hlast2 : (y :: rest').getLast? = some 0 := by
            rcases hlast with hlast | habs
            · rw [getLast_cons_ne_nil (by simp)] at hlast
              exact hlast
            · simp at habs
          obtain ⟨w, pr, heq, hw1, hw2, hint, hdown, hrp⟩ :=
            (ih (i + 1) hi f hhi2 hrest_vals h01').2
              (by rw [show i + 1 - 1 = i by ring, hfi]) hlast2
          refine ⟨(i, w) :: pr, ?_, le_refl i, by omega, hw2, hprev, ?_, hdown, hrp⟩
          · rw [hstep, heq]
            rfl
          · intro j hj1 hj2
            rcases eq_or_lt_of_le hj1 with rfl | hj3
            · exact hfi
            · exact hint j (by omega) hj2
    · -- scan started above: a run is pending
      intro hprev hlast
      rcases hx01 with rfl | rfl
      · -- current sample 0: down event reported at i - 1
        have hstep : upDown 1 i ((0 : Int) :: rest) =
            ((upDown 0 (i + 1) rest).1, (i - 1) :: (upDown 0 (i + 1) rest).2) := by
          rw [upDown_cons, if_neg (by decide), if_pos (by decide)]
        have hlast2 : rest.getLast? = some 0 ∨ rest = [] := by
          rcases rest with _ | ⟨y, rest'⟩
          · exact Or.inr rfl
          · rw [getLast_cons_ne_nil (by simp)] at hlast
            exact Or.inl hlast
        obtain ⟨pr, heq, hrp⟩ :=
          (ih (i + 1) hi f hhi2 hrest_vals h01').1
            (by rw [show i + 1 - 1 = i by ring, hfi]) hlast2
        refine ⟨i - 1, pr, ?_, le_refl _, by push_cast [List.length_cons] at hhi; omega,
          by intro j hj1 hj2; omega, ?_, ?_⟩
        · rw [hstep, heq]
        · rw [show i - 1 + 1 = i by ring, hfi]
        · rw [show i - 1 + 2 = i + 1 by ring]
          exact hrp
      · -- current sample 1: run continues
        have hstep : upDown 1 i ((1 : Int) :: rest) = upDown 1 (i + 1) rest := by
          rw [upDown_cons, if_neg (by decide), if_neg (by decide)]
        rcases rest with _ | ⟨y, rest'⟩
        · simp [List.getLast?_singleton] at hlast
        · rw [getLast_cons_ne_nil (by simp)] at hlast
          obtain ⟨w, pr, heq, hw1, hw2, hint, hdown, hrp⟩ :=
            (ih (i + 1) hi f hhi2 hrest_vals h01').2
              (by rw [show i + 1 - 1 = i by ring, hfi]) hlast
          refine ⟨w, pr, hstep.trans heq, by omega, hw2, ?_, hdown, hrp⟩
          intro j hj1 hj2
          rcases eq_or_lt_of_le hj1 with rfl | hj3
          · exact hfi
          · exact hint j (by omega) hj2

/-- `insertSorted` is a permutation of consing. -/
theorem insertSorted_perm (x : Int) :
    ∀ l : List Int, List.Perm (insertSorted x l) (x :: l) := by
  intro l
  induction l with
  | nil => simp [insertSorted]
  | cons y ys ih =>
    by_cases h : x ≤ y
    · simp [insertSorted, h]
    · simp only [insertSorted, if_neg h]
      exact (List.Perm.cons y ih).trans (List.Perm.swap x y ys)

/-- `insertSorted` preserves sortedness. -/
theorem insertSorted_sorted (x : Int) :
    ∀ l : List Int, l.Sorted (· ≤ ·) → (insertSorted x l).Sorted (· ≤ ·) := by
  intro l
  induction l with
  | nil => intro _; simp [insertSorted]
  | cons y ys ih =>
    intro hs
    rw [List.sorted_cons] at hs
    by_cases h : x ≤ y
    · rw [insertSorted, if_pos h, List.sorted_cons]
      refine ⟨?_, List.sorted_cons.mpr hs⟩
      intro b hb
      rcases List.mem_cons.mp hb with rfl | hb2
      · exact h
      · exact le_trans h (hs.1 b hb2)
    · rw [insertSorted, if_neg h, List.sorted_cons]
      refine ⟨?_, ih hs.2⟩
      intro b hb
      have hb2 := (insertSorted_perm x ys).mem_iff.mp hb
      rcases List.mem_cons.mp hb2 with rfl | hb3
      · omega
      · exact hs.1 b hb3

/-- `pySorted` permutes its input. -/
theorem pySorted_perm : ∀ l : List Int, List.Perm (pySorted l) l := by
  intro l
  induction l with
  | nil => simp [pySorted]
  | cons x xs ih =>
    exact (insertSorted_perm x (pySorted xs)).trans (List.Perm.cons x ih)

/-- `pySorted` sorts. -/
theorem pySorted_sorted : ∀ l : List Int, (pySorted l).Sorted (· ≤ ·) := by
  intro l
  induction l with
  | nil => simp [pySorted]
  | cons x xs ih => exact insertSorted_sorted x (pySorted xs) ih

/-- The flattening of a pair list is a permutation of the concatenation of
its fronts and backs. -/
theorem interleave_perm :
    ∀ pr : List (Int × Int),
      List.Perm (pr.map Prod.fst ++ pr.map Prod.snd) (interleave pr) := by
  intro pr
  induction pr with
  | nil => simp [interleave]
  | cons p rest ih =>
    obtain ⟨u, w⟩ := p
    simp only [List.map_cons, interleave, List.cons_append]
    refine List.Perm.cons u ?_
    exact List.perm_middle.trans (List.Perm.cons w ih)

/-- The flattening of a run decomposition is sorted and bounded below. -/
theorem interleave_sorted (f : Int → Int) :
    ∀ (pr : List (Int × Int)) (lo hi : Int), RunPairs f lo hi pr →
      (interleave pr).Sorted (· ≤ ·) ∧ ∀ y ∈ interleave pr, lo ≤ y := by
  intro pr
  induction pr with
  | nil => intro lo hi _; simp [interleave]
  | cons p rest ih =>
    intro lo hi h
    obtain ⟨u, w⟩ := p
    obtain ⟨h1, h2, h3, _, _, _, h7⟩ := h
    obtain ⟨ihs, ihb⟩ := ih (w + 2) hi h7
    constructor
    · rw [interleave, List.sorted_cons]
      constructor
      · intro b hb
        rcases List.mem_cons.mp hb with rfl | hb2
        · exact h2
        · have := ihb b hb2
          omega
      · rw [List.sorted_cons]
        refine ⟨?_, ihs⟩
        intro b hb
        have := ihb b hb
        omega
    · intro y hy
      rcases List.mem_cons.mp hy with rfl | hy2
      · exact h1
      · rcases List.mem_cons.mp hy2 with rfl | hy3
        · omega
        · have := ihb y hy3
          omega

/-- Pairing up the flattening recovers the pair list. -/
theorem pairUp_interleave : ∀ pr : List (Int × Int), pairUp (interleave pr) = pr := by
  intro pr
  induction pr with
  | nil => simp [interleave, pairUp]
  | cons p rest ih =>
    obtain ⟨u, w⟩ := p
    rw [interleave, pairUp, ih]

/-- On a run decomposition, sorting the concatenated report lists yields the
ascending flattening `u₀, w₀, u₁, w₁, …`. -/
theorem pySorted_interleave (f : Int → Int) (pr : List (Int × Int)) (lo hi : Int)
    (h : RunPairs f lo hi pr) :
    pySorted (pr.map Prod.fst ++ pr.map Prod.snd) = interleave pr := by
  refine List.eq_of_perm_of_sorted ?_ (pySorted_sorted _) (interleave_sorted f pr lo hi h).1
  exact (pySorted_perm _).trans (interleave_perm pr)

/-- Explicit form of the boundary overwrite. -/
theorem setLast_append (v : Int) :
    ∀ l : List Int, l ≠ [] → setLast v l = l.dropLast ++ [v] := by
  intro l
  induction l with
  | nil => intro h; exact absurd rfl h
  | cons x xs ih =>
    intro _
    cases xs with
    | nil => simp [setLast]
    | cons y ys =>
      show x :: setLast v (y :: ys) = (x :: y :: ys).dropLast ++ [v]
      rw [ih (by simp)]
      rfl

/-- The positivity indicator takes only the values 0 and 1. -/
theorem values01_above0 (m : List ℚ) : ∀ x ∈ above0 m, x = 0 ∨ x = 1 := by
  intro x hx
  simp only [above0, List.mem_map] at hx
  obtain ⟨q, _, hq⟩ := hx
  by_cases h : 0 < q
  · rw [if_pos h] at hq
    exact Or.inr hq.symm
  · rw [if_neg h] at hq
    exact Or.inl hq.symm

/-- With the `positive` boundary policy, `sign_changes` reports exactly the
maximal-run decomposition of the strict-positivity indicator of the signal,
with the last sample forced to count as non-positive (the code overwrites
`above0[-1]` with 0). -/
theorem sign_changes_positive_runs (m : List ℚ) (hm : m ≠ []) :
    ∃ pr, sign_changes m .positive = (pr.map Prod.fst, pr.map Prod.snd) ∧
      RunPairs
        (fun j : Int => if 0 ≤ j ∧ j < (m.length : Int) - 1 ∧ 0 < sigGet m j then 1 else 0)
        0 (m.length : Int) pr := by
  have hm1 : 0 < m.length := List.length_pos.mpr hm
  have hsc : sign_changes m .positive =
      upDown ((setLast 0 (above0 m)).getLastD 0) 0 (setLast 0 (above0 m)) := by
    simp only [sign_changes, boundaryValue]
  have hbne : above0 m ≠ [] := by
    intro h
    have := congrArg List.length h
    simp [above0] at this
    exact hm this
  have hblen : (above0 m).length = m.length := by simp [above0]
  have ha : setLast 0 (above0 m) = (above0 m).dropLast ++ [0] := setLast_append 0 _ hbne
  have halen : (setLast 0 (above0 m)).length = m.length := by
    rw [ha]
    simp [List.length_dropLast, hblen]
    omega
  have hlastD : (setLast 0 (above0 m)).getLastD 0 = 0 := setLast_getLastD 0 _ hbne 0
  have hlast2 : (setLast 0 (above0 m)).getLast? = some 0 := by
    rw [ha]
    exact List.getLast?_concat _
  have h01 : ∀ x ∈ setLast 0 (above0 m), x = 0 ∨ x = 1 := by
    intro x hx
    rw [ha] at hx
    rcases List.mem_append.mp hx with hx1 | hx2
    · exact values01_above0 m x ((List.dropLast_sublist _).subset hx1)
    · simp at hx2
      exact Or.inl hx2
  have hvals : ∀ k : Nat, k < (setLast 0 (above0 m)).length →
      (setLast 0 (above0 m)).getD k 0 =
        (fun j : Int => if 0 ≤ j ∧ j < (m.length : Int) - 1 ∧ 0 < sigGet m j then 1 else 0)
          ((0 : Int) + k) := by
    intro k hk
    rw [halen] at hk
    simp only []
    rw [show (0 : Int) + (k : Int) = (k : Int) by ring]
    by_cases hk1 : k < m.length - 1
    · have hkb : k < (above0 m).dropLast.length := by
        simp [List.length_dropLast, hblen]
        omega
      have hkb2 : k < (above0 m).length := by omega
      have hks : k < m.length := by omega
      have h1 : (setLast 0 (above0 m)).getD k 0 = (above0 m).dropLast.getD k 0 := by
        rw [ha]
        exact List.getD_append _ _ 0 k hkb
      have h2 : (above0 m).dropLast.getD k 0 = (above0 m).get ⟨k, hkb2⟩ := by
        rw [List.getD_eq_getElem _ 0 hkb, List.getElem_dropLast]
        rfl
      have h3 : (above0 m).get ⟨k, hkb2⟩ = if 0 < m.get ⟨k, hks⟩ then 1 else 0 := by
        simp [above0]
      have hsg : sigGet m (k : Int) = m.get ⟨k, hks⟩ := by
        simp only [sigGet, if_pos (Int.natCast_nonneg k), Int.toNat_natCast]
        rw [List.getD_eq_getElem _ 0 hks]
        rfl
      rw [h1, h2, h3, hsg]
      by_cases hts : 0 < m.get ⟨k, hks⟩
      · rw [if_pos hts, if_pos ⟨Int.natCast_nonneg k, by push_cast; omega, hts⟩]
      · rw [if_neg hts, if_neg (fun hcon => hts hcon.2.2)]
    · have hk2 : k = m.length - 1 := by omega
      have h1 : (setLast 0 (above0 m)).getD k 0 = 0 := by
        rw [ha]
        rw [List.getD_append_right _ _ 0 k (by simp [List.length_dropLast, hblen]; omega)]
        cases hc : k - (above0 m).dropLast.length with
        | zero => rfl
        | succ j => rfl
      rw [h1, if_neg]
      intro hcon
      have h2 := hcon.2.1
      omega
  obtain ⟨pr, heq, hrp⟩ :=
    (upDown_runs (setLast 0 (above0 m)) 0 (m.length : Int)
        (fun j : Int => if 0 ≤ j ∧ j < (m.length : Int) - 1 ∧ 0 < sigGet m j then 1 else 0)
        (by rw [halen]; ring) hvals h01).1
      (by simp) (Or.inl hlast2)
  refine ⟨pr, ?_, hrp⟩
  rw [hsc, hlastD, heq]

/-- `intervals_above_threshold` returns exactly the maximal-run decomposition
of the predicate "sample exceeds the threshold", with the last sample forced
to count as not exceeding it. -/
theorem intervals_above_threshold_runs (s : List ℚ) (t : ℚ) (hs : s ≠ []) :
    ∃ pr, intervals_above_threshold s t = pr ∧
      RunPairs
        (fun j : Int => if 0 ≤ j ∧ j < (s.length : Int) - 1 ∧ t < sigGet s j then 1 else 0)
        0 (s.length : Int) pr := by
  obtain ⟨pr, heq, hrp⟩ :=
    sign_changes_positive_runs (s.map fun x => x - t) (by simpa using hs)
  have hf : (fun j : Int =>
        if 0 ≤ j ∧ j < ((s.map fun x => x - t).length : Int) - 1 ∧
            0 < sigGet (s.map fun x => x - t) j then (1 : Int) else 0)
      = (fun j : Int =>
        if 0 ≤ j ∧ j < (s.length : Int) - 1 ∧ t < sigGet s j then 1 else 0) := by
    funext j
    by_cases h0 : 0 ≤ j ∧ j < (s.length : Int) - 1
    · have hj : j.toNat < s.length := by omega
      have hjr : sigGet (s.map fun x => x - t) j = sigGet s j - t := by
        simp only [sigGet, if_pos h0.1]
        rw [List.getD_eq_getElem _ 0 (show j.toNat < (s.map fun x => x - t).length by
              simpa using hj),
            List.getD_eq_getElem _ 0 hj, List.getElem_map]
      rw [hjr]
      by_cases hts : t < sigGet s j
      · rw [if_pos ⟨h0.1, by simpa using h0.2, sub_pos.mpr hts⟩, if_pos ⟨h0.1, h0.2, hts⟩]
      · rw [if_neg (fun hcon => hts (sub_pos.mp hcon.2.2)),
            if_neg (fun hcon => hts hcon.2.2)]
    · rw [if_neg (fun hcon => h0 ⟨hcon.1, by simpa using hcon.2.1⟩),
          if_neg (fun hcon => h0 ⟨hcon.1, hcon.2.1⟩)]
  refine ⟨pr, ?_, ?_⟩
  · simp only [intervals_above_threshold]
    rw [heq]
    rw [pySorted_interleave _ pr 0 _ hrp, pairUp_interleave]
  · rw [hf] at hrp
    simpa using hrp

/-- C6 amended: every interval `(start, end)` returned by
`intervals_above_threshold` satisfies `0 ≤ start ≤ end ≤ len - 2`, every
sample of the closed range `[start, end]` exceeds the threshold, the sample
just before `start` (when one exists) does not exceed it, and the sample
just after `end` does not exceed it *unless* `end` is the second-to-last
index: the code overwrites the last indicator entry with 0, so an interval
may be cut off at `len - 2` with the final sample still above the
threshold. -/
theorem intervals_above_threshold_amended (s : List ℚ) (t : ℚ) (st en : Int)
    (hmem : (st, en) ∈ intervals_above_threshold s t) :
    0 ≤ st ∧ st ≤ en ∧ en + 2 ≤ (s.length : Int) ∧
    (∀ j : Int, st ≤ j → j ≤ en → t < sigGet s j) ∧
    (st = 0 ∨ sigGet s (st - 1) ≤ t) ∧
    (en + 2 = (s.length : Int) ∨ sigGet s (en + 1) ≤ t) := by
  have hs : s ≠ [] := by
    intro h
    rw [h] at hmem
    simp [intervals_above_threshold, sign_changes, boundaryValue, above0, setLast,
      upDown, pySorted, pairUp] at hmem
  obtain ⟨pr, heq, hrp⟩ := intervals_above_threshold_runs s t hs
  rw [heq] at hmem
  obtain ⟨h1, h2, h3, h4, h5, h6⟩ := runPairs_mem _ pr 0 _ hrp st en hmem
  refine ⟨h1, h2, h3, ?_, ?_, ?_⟩
  · intro j hj1 hj2
    have h7 := h5 j hj1 hj2
    by_contra hcon
    rw [if_neg (fun hc => hcon hc.2.2)] at h7
    exact absurd h7 (by norm_num)
  · by_cases h7 : st = 0
    · exact Or.inl h7
    · right
      by_contra hcon
      push_neg at hcon
      rw [if_pos ⟨by omega, by omega, hcon⟩] at h4
      exact absurd h4 (by norm_num)
  · by_cases h7 : en + 2 = (s.length : Int)
    · exact Or.inl h7
    · right
      by_contra hcon
      push_neg at hcon
      rw [if_pos ⟨by omega, by omega, hcon⟩] at h6
      exact absurd h6 (by norm_num)

/-- C6 counterexample: on the everywhere-positive signal `[5, 5, 5]` with
threshold 0 the function returns the single interval `(0, 1)`, and the
sample at index 2 — immediately outside the right boundary — still exceeds
the threshold, because `sign_changes` forces the last indicator entry to 0
and reports the resulting artificial down-crossing shifted down by one. -/
theorem intervals_above_threshold_boundary_exceeds :
    intervals_above_threshold [5, 5, 5] 0 = [(0, 1)] ∧
      0 < sigGet [5, 5, 5] (1 + 1) := by
  constructor
  · have hab : above0 (List.map (fun x => x - (0 : ℚ)) [5, 5, 5]) = [1, 1, 1] := by
      norm_num [above0]
    simp only [intervals_above_threshold, sign_changes, boundaryValue]
    rw [hab]
    decide
  · norm_num [sigGet, Int.toNat]

/-- C6 witness: the amended statement applied to the signal `[-1, 5, -1]`
with threshold 0, whose single interval is `(1, 1)`. -/
theorem intervals_above_threshold_amended_witness :
    0 ≤ (1 : Int) ∧ (1 : Int) ≤ 1 ∧ (1 : Int) + 2 ≤ (([(-1 : ℚ), 5, -1] : List ℚ).length : Int) ∧
    (∀ j : Int, 1 ≤ j → j ≤ 1 → 0 < sigGet [-1, 5, -1] j) ∧
    ((1 : Int) = 0 ∨ sigGet [-1, 5, -1] (1 - 1) ≤ 0) ∧
    ((1 : Int) + 2 = (([(-1 : ℚ), 5, -1] : List ℚ).length : Int) ∨
      sigGet [-1, 5, -1] (1 + 1) ≤ 0) :=
  intervals_above_threshold_amended [-1, 5, -1] 0 1 1 (by
    have hab : above0 (List.map (fun x => x - (0 : ℚ)) [-1, 5, -1]) = [0, 1, 0] := by
      norm_num [above0]
    simp only [intervals_above_threshold, sign_changes, boundaryValue]
    rw [hab]
    decide)

/-- Dropping the `-1234` sentinel at the end of a 0/1 list does not change
the scan: the sentinel's difference with its 0/1 predecessor is never
`±1`. -/
theorem upDown_strip_sentinel :
    ∀ (l : List Int) (prev i : Int), (∀ x ∈ prev :: l, x = 0 ∨ x = 1) →
      upDown prev i (l ++ [-1234]) = upDown prev i l := by
  intro l
  induction l with
  | nil =>
    intro prev i h
    rcases h prev (List.mem_cons_self prev []) with rfl | rfl
    · rw [List.nil_append, upDown_cons, if_neg (by decide), if_neg (by decide)]
      rfl
    · rw [List.nil_append, upDown_cons, if_neg (by decide), if_neg (by decide)]
      rfl
  | cons x rest ih =>
    intro prev i h
    rw [List.cons_append, upDown_cons, upDown_cons]
    rw [ih x (i + 1) (fun y hy => h y (by
      rcases List.mem_cons.mp hy with rfl | hy2
      · exact List.mem_cons_of_mem _ (List.mem_cons_self _ _)
      · exact List.mem_cons_of_mem _ (List.mem_cons_of_mem _ hy2)))]

/-- The indexed map preserves length. -/
theorem mapIdxFrom_length (f : Nat → ℚ) :
    ∀ (l : List ℚ) (j : Nat), (mapIdxFrom f j l).length = l.length := by
  intro l
  induction l with
  | nil => intro j; rfl
  | cons x rest ih => intro j; simp [mapIdxFrom, ih]

/-- Elementwise value of the indexed map. -/
theorem mapIdxFrom_getD (f : Nat → ℚ) :
    ∀ (l : List ℚ) (j k : Nat), k < l.length →
      (mapIdxFrom f j l).getD k 0 = f (j + k) := by
  intro l
  induction l with
  | nil => intro j k hk; simp at hk
  | cons x rest ih =>
    intro j k hk
    cases k with
    | zero => simp [mapIdxFrom]
    | succ k2 =>
      rw [mapIdxFrom, List.getD_cons_succ, ih (j + 1) k2 (by simpa using hk)]
      congr 1
      omega

/-- Elementwise value of the positivity indicator. -/
theorem above0_getD (m : List ℚ) :
    ∀ k : Nat, k < m.length →
      (above0 m).getD k 0 = if 0 < m.getD k 0 then 1 else 0 := by
  intro k hk
  rw [above0, List.getD_eq_getElem _ 0 (by simpa using hk), List.getElem_map,
    List.getD_eq_getElem _ 0 hk]

/-- The last entry of a non-empty list through `getD`. -/
theorem getLast_eq_getD :
    ∀ l : List Int, l ≠ [] → l.getLast? = some (l.getD (l.length - 1) 0) := by
  intro l
  induction l with
  | nil => intro h; exact absurd rfl h
  | cons x xs ih =>
    intro _
    cases xs with
    | nil => rfl
    | cons y ys =>
      rw [List.getLast?_cons_cons, ih (by simp)]
      rfl

/-- `dropLast` preserves the retained entries. -/
theorem dropLast_getD (l : List Int) :
    ∀ k : Nat, k < l.dropLast.length → l.dropLast.getD k 0 = l.getD k 0 := by
  intro k hk
  have hk2 : k < l.length := by
    have := List.length_dropLast l
    omega
  rw [List.getD_eq_getElem _ 0 hk, List.getD_eq_getElem _ 0 hk2, List.getElem_dropLast]

/-- The alternation shape forces equal lengths. -/
theorem altuv_length :
    ∀ (us : List Int) (lo : Int) (ws : List Int),
      AltUV lo us ws → us.length = ws.length := by
  intro us
  induction us with
  | nil =>
    intro lo ws h
    cases ws with
    | nil => rfl
    | cons w ws => simp [AltUV] at h
  | cons u us ih =>
    intro lo ws h
    cases ws with
    | nil => simp [AltUV] at h
    | cons w ws =>
      obtain ⟨_, _, h3⟩ := h
      simp [ih _ _ h3]

/-- Dropping coinciding pairs from an alternation yields a strict
interleaving: of each reported pair, the kept ones satisfy `u < w`, and the
gap of two between a reported valley and the next peak absorbs the shift. -/
theorem altuv_dedup :
    ∀ (us : List Int) (lo : Int) (ws : List Int), AltUV lo us ws →
      IlvFrom lo (dedupPairs us ws).1 (dedupPairs us ws).2 := by
  intro us
  induction us with
  | nil =>
    intro lo ws h
    cases ws with
    | nil => trivial
    | cons w ws => simp [AltUV] at h
  | cons u us ih =>
    intro lo ws h
    cases ws with
    | nil => simp [AltUV] at h
    | cons w ws =>
      obtain ⟨h1, h2, h3⟩ := h
      have ihr := ih _ _ h3
      by_cases he : u = w
      · have : dedupPairs (u :: us) (w :: ws) = dedupPairs us ws := by
          simp only [dedupPairs, List.zip_cons_cons, List.filter_cons]
          rw [decide_eq_false (by simpa using he)]
          simp
        rw [this]
        refine ilv_mono _ (w + 2) lo _ (by omega) ihr
      · have : dedupPairs (u :: us) (w :: ws) =
            (u :: (dedupPairs us ws).1, w :: (dedupPairs us ws).2) := by
          simp only [dedupPairs, List.zip_cons_cons, List.filter_cons]
          rw [decide_eq_true (by simpa using he)]
          simp
        rw [this]
        exact ⟨h1, by omega, ilv_mono _ (w + 2) (w + 1) _ (by omega) ihr⟩

/-- A strict interleaving passes the code's pairwise `valley > peak`
check. -/
theorem ilv_zip_all :
    ∀ (ps : List Int) (lo : Int) (vs : List Int), IlvFrom lo ps vs →
      ((ps.zip vs).all fun q => q.1 < q.2) = true := by
  intro ps
  induction ps with
  | nil => intro lo vs _; cases vs <;> rfl
  | cons p ps ih =>
    intro lo vs h
    cases vs with
    | nil => simp [IlvFrom] at h
    | cons v vs =>
      obtain ⟨h1, h2, h3⟩ := h
      simp only [List.zip_cons_cons, List.all_cons, ih _ _ h3, Bool.and_true]
      simpa using h2

/-- The `.never`-policy scan of the slope of a long-enough signal: because
the convolution zeroes `kernelOffset = 4` samples at each end, the
indicator starts with a 0 and its second-to-last entry is 0, so neither
the `-1234` sentinel nor the head contributes a crossing, and the reported
candidate lists form an `AltUV` alternation starting at index 1. -/
theorem sign_changes_never_altuv (s : List ℚ) (h9 : 9 ≤ s.length) :
    ∃ us ws, sign_changes (slopeOf s) .never = (us, ws) ∧ AltUV 1 us ws := by
  have hko : kernelOffset = 4 := rfl
  have hslen : (slopeOf s).length = s.length := mapIdxFrom_length _ s 0
  have hblen : (above0 (slopeOf s)).length = s.length := by
    simp [above0, hslen]
  have hslope0 : (slopeOf s).getD 0 0 = 0 := by
    rw [slopeOf, mapIdxFrom_getD _ s 0 0 (by omega)]
    simp only [hko]
    rw [if_pos (Or.inl (by omega))]
  have hslope2 : (slopeOf s).getD (s.length - 2) 0 = 0 := by
    rw [slopeOf, mapIdxFrom_getD _ s 0 (s.length - 2) (by omega)]
    simp only [hko]
    rw [if_pos (Or.inr (by omega))]
  have hb0 : (above0 (slopeOf s)).getD 0 0 = 0 := by
    rw [above0_getD _ 0 (by omega), hslope0]
    norm_num
  have hb2 : (above0 (slopeOf s)).getD (s.length - 2) 0 = 0 := by
    rw [above0_getD _ _ (by omega), hslope2]
    norm_num
  obtain ⟨x, tb, hbx⟩ : ∃ x tb, above0 (slopeOf s) = x :: tb := by
    cases hc : above0 (slopeOf s) with
    | nil => rw [hc] at hblen; simp at hblen; omega
    | cons x tb => exact ⟨x, tb, rfl⟩
  have hx0 : x = 0 := by
    have h := hb0
    rw [hbx] at h
    simpa using h
  have htblen : tb.length = s.length - 1 := by
    rw [hbx] at hblen
    simp at hblen
    omega
  have htdlen : tb.dropLast.length = s.length - 2 := by
    rw [List.length_dropLast, htblen]
    omega
  have htdne : tb.dropLast ≠ [] := by
    intro h
    have := congrArg List.length h
    rw [htdlen] at this
    simp at this
    omega
  have h01td : ∀ y ∈ tb.dropLast, y = 0 ∨ y = 1 := by
    intro y hy
    refine values01_above0 (slopeOf s) y ?_
    rw [hbx]
    exact List.mem_cons_of_mem _ ((List.dropLast_sublist tb).subset hy)
  have hb2' : tb.getD (s.length - 3) 0 = 0 := by
    rw [hbx, show s.length - 2 = (s.length - 3) + 1 from by omega, List.getD_cons_succ] at hb2
    exact hb2
  have hlasttd : tb.dropLast.getLast? = some 0 := by
    rw [getLast_eq_getD tb.dropLast htdne, dropLast_getD tb _ (by omega),
        show tb.dropLast.length - 1 = s.length - 3 from by omega, hb2']
  have hvals : ∀ k : Nat, k < tb.dropLast.length →
      tb.dropLast.getD k 0 =
        (fun j : Int => if 1 ≤ j then tb.dropLast.getD (j - 1).toNat 0 else 0)
          ((1 : Int) + k) := by
    intro k _
    simp only []
    rw [if_pos (by omega), show ((1 : Int) + (k : Int) - 1).toNat = k from by omega]
  have hprev : (fun j : Int => if 1 ≤ j then tb.dropLast.getD (j - 1).toNat 0 else 0)
      ((1 : Int) - 1) = 0 := by
    simp only []
    rw [if_neg (by omega)]
  obtain ⟨pr, heq, hrp⟩ :=
    (upDown_runs tb.dropLast 1 (1 + (tb.dropLast.length : Int))
        (fun j : Int => if 1 ≤ j then tb.dropLast.getD (j - 1).toNat 0 else 0)
        rfl hvals h01td).1 hprev (Or.inl hlasttd)
  refine ⟨pr.map Prod.fst, pr.map Prod.snd, ?_, runPairs_altuv _ pr 1 _ hrp⟩
  have hsc : sign_changes (slopeOf s) .never =
      upDown ((setLast (-1234) (above0 (slopeOf s))).getLastD (-1234)) 0
        (setLast (-1234) (above0 (slopeOf s))) := by
    simp only [sign_changes, boundaryValue]
  have hbne : above0 (slopeOf s) ≠ [] := by rw [hbx]; simp
  have hlastD : (setLast (-1234 : Int) (above0 (slopeOf s))).getLastD (-1234) = -1234 :=
    setLast_getLastD _ _ hbne _
  have hset : setLast (-1234 : Int) (above0 (slopeOf s)) =
      (0 : Int) :: (tb.dropLast ++ [-1234]) := by
    rw [setLast_append _ _ hbne, hbx, hx0]
    cases tb with
    | nil => exfalso; simp at htblen; omega
    | cons y tys => rfl
  have hstrip1 : upDown (-1234 : Int) 0 ((0 : Int) :: (tb.dropLast ++ [-1234])) =
      upDown 0 1 (tb.dropLast ++ [-1234]) := by
    rw [upDown_cons, if_neg (by decide), if_neg (by decide)]
    exact Prod.mk.eta
  have hstripS : upDown (0 : Int) 1 (tb.dropLast ++ [-1234]) = upDown 0 1 tb.dropLast :=
    upDown_strip_sentinel tb.dropLast 0 1 (by
      intro y hy
      rcases List.mem_cons.mp hy with rfl | hy2
      · exact Or.inl rfl
      · exact h01td y hy2)
  rw [hsc, hlastD, hset, hstrip1, hstripS, heq]

/-- `peaks_and_valleys` always returns normally, and the returned lists are
equal-length and strictly interleaved. -/
theorem peaks_and_valleys_result (s : List ℚ) (test : List ℚ → Int → Int → Bool) :
    ∃ ps vs, peaks_and_valleys s test = .done ps vs ∧ ps.length = vs.length ∧
      IlvFrom 0 ps vs := by
  by_cases hshort : s.length < derivative_kernel.length
  · exact ⟨[], [], by rw [peaks_and_valleys, if_pos hshort], rfl, trivial⟩
  · have h9 : 9 ≤ s.length := by
      have h := hshort
      have : derivative_kernel.length = 9 := rfl
      omega
    obtain ⟨us, ws, hsc, halt⟩ := sign_changes_never_altuv s h9
    have hlen : us.length = ws.length := altuv_length us 1 ws halt
    have hIlv : IlvFrom 1 (dedupPairs us ws).1 (dedupPairs us ws).2 := altuv_dedup us 1 ws halt
    have hIlv0 : IlvFrom 0 (dedupPairs us ws).1 (dedupPairs us ws).2 :=
      ilv_mono _ 1 0 _ (by omega) hIlv
    have hall : (((dedupPairs us ws).1.zip (dedupPairs us ws).2).all fun q =>
        q.1 < q.2) = true := ilv_zip_all _ 0 _ hIlv0
    have hunfold : peaks_and_valleys s test =
        (if (dedupPairs us ws).1.length < 2 then
          PVResult.done (dedupPairs us ws).1 (dedupPairs us ws).2
         else pvLoop s test (2 * (dedupPairs us ws).1.length + 1) 0
          (dedupPairs us ws).1 (dedupPairs us ws).2) := by
      rw [peaks_and_valleys, if_neg hshort]
      simp only [hsc]
      rw [if_neg (not_ne_iff.mpr hlen), if_neg (not_not_intro hall)]
    by_cases hsmall : (dedupPairs us ws).1.length < 2
    · exact ⟨_, _, by rw [hunfold, if_pos hsmall], ilv_length _ _ _ hIlv0, hIlv0⟩
    · obtain ⟨ps2, vs2, hloop, hI2⟩ :=
        pvLoop_invariant s test (2 * (dedupPairs us ws).1.length + 1) 0 _ _ hIlv0
          (by omega) (by omega)
      exact ⟨ps2, vs2, by rw [hunfold, if_neg hsmall]; exact hloop,
        ilv_length _ _ _ hI2, hI2⟩

/-- C7: the refinement-loop invariant — whenever the loop returns normally
from an equal-length strictly interleaved state, the returned peak and
valley lists are again equal-length and strictly interleaved (each valley
strictly after its paired peak and strictly before the next peak); and the
top-level `peaks_and_valleys`, whenever it returns normally, returns lists
satisfying that same invariant. -/
theorem peaks_and_valleys_interleaved :
    (∀ (s : List ℚ) (test : List ℚ → Int → Int → Bool) (fuel c : Nat)
        (ps vs ps2 vs2 : List Int),
        IlvFrom 0 ps vs → pvLoop s test fuel c ps vs = .done ps2 vs2 →
        ps2.length = vs2.length ∧ IlvFrom 0 ps2 vs2) ∧
    (∀ (s : List ℚ) (test : List ℚ → Int → Int → Bool) (ps vs : List Int),
        peaks_and_valleys s test = .done ps vs →
        ps.length = vs.length ∧ IlvFrom 0 ps vs) := by
  constructor
  · intro s test fuel c ps vs ps2 vs2 hI hloop
    have h2 := pvLoop_done_inv s test fuel c ps vs ps2 vs2 hI hloop
    exact ⟨ilv_length _ _ _ h2, h2⟩
  · intro s test ps vs hdone
    obtain ⟨ps2, vs2, hd2, hlen, hI⟩ := peaks_and_valleys_result s test
    rw [hdone] at hd2
    obtain ⟨e1, e2⟩ := PVResult.done.inj hd2
    rw [e1, e2]
    exact ⟨hlen, hI⟩

/-- C7 witness: the loop part applied to the interleaved state
`peaks = [2]`, `valleys = [5]` (on which the loop, with a test accepting
everything, halts after one advance), and the top-level part applied to the
empty signal. -/
theorem peaks_and_valleys_interleaved_witness :
    (([2] : List Int).length = ([5] : List Int).length ∧ IlvFrom 0 [2] [5]) ∧
    (([] : List Int).length = ([] : List Int).length ∧ IlvFrom 0 [] []) :=
  ⟨peaks_and_valleys_interleaved.1 [] (fun _ _ _ => true) 3 0 [2] [5] [2] [5]
      ⟨by decide, by decide, trivial⟩ (by decide),
   peaks_and_valleys_interleaved.2 [] (fun _ _ _ => true) [] [] (by decide)⟩

/-- C10: the iterative refinement loop of `peaks_and_valleys` terminates on
every signal and every acceptance predicate — the function always returns
normally (each iteration either advances the cursor past a peak or removes
exactly one peak and one valley while stepping the cursor back at most one
position, so `2·len(peaks) + 1` iterations always reach the exit
condition). -/
theorem peaks_and_valleys_terminates (s : List ℚ) (test : List ℚ → Int → Int → Bool) :
    ∃ ps vs, peaks_and_valleys s test = .done ps vs := by
  obtain ⟨ps, vs, hd, _, _⟩ := peaks_and_valleys_result s test
  exact ⟨ps, vs, hd⟩
